import Mathlib

/-
Verification of the selection-tree resolution engine of `graphql-fields-list`
(src/index.ts and the public entry module), as a shallow embedding in Lean.

Modelling conventions:
* JavaScript objects used as string-keyed dictionaries become association
  lists `List (String × α)` preserving insertion order; assignment to an
  existing key keeps its position (`assocSet`), lookup is `assocLookup`.
* The dynamic value `false | subobject` (MapResultKey, SkipValue) becomes a
  two-constructor inductive; JS truthiness of such a value is `false` for the
  boolean `false` and `true` for any object (including the empty one).
* Recursion through the fragment table is not structurally bounded in the
  source (fragment cycles are the caller's responsibility), so `traverse`
  takes a fuel parameter and returns `none` when the fuel is exhausted; all
  theorems quantify over executions that return a result.
* `new RegExp(key.replace(/\*/g, '.*')).test(name)` is modelled by splitting
  the key on `*` into literal chunks and testing for an unanchored in-order
  occurrence of the chunks; keys are produced by splitting patterns on `.`,
  so chunks contain no regex metacharacters besides the replaced `*`.
* Variable values are modelled as booleans (the only kind the directive
  check meaningfully consumes); an absent variable behaves like a falsy
  JS `undefined`.
* The compiled TypeScript runs in strict mode, where assigning a property
  to a primitive (`true`) throws a TypeError, and reading a property of
  `undefined` throws as well; `skipTree` therefore returns an `Except` and
  yields `.error ()` on the inputs whose processing performs such a step.
-/

namespace GFL

/-- Association-list lookup, the model of reading a JS object property:
returns the value stored at the first matching key, or none. -/
def assocLookup {α : Type} : List (String × α) → String → Option α
  | [], _ => none
  | (k, v) :: rest, n => if k = n then some v else assocLookup rest n

/-- Association-list update, the model of assigning a JS object property:
an existing key keeps its position in enumeration order, a fresh key is
appended at the end. -/
def assocSet {α : Type} : List (String × α) → String → α → List (String × α)
  | [], n, v => [(n, v)]
  | (k, w) :: rest, n, v =>
      if k = n then (k, v) :: rest else (k, w) :: assocSet rest n v

/-- Model of String.prototype.split on a single separator character,
working on the character list of the string. -/
def splitCharList (sep : Char) : List Char → List (List Char)
  | [] => [[]]
  | c :: cs =>
      if c = sep then [] :: splitCharList sep cs
      else
        match splitCharList sep cs with
        | [] => [[c]]
        | h :: t => (c :: h) :: t

/-- The source splits skip patterns and branch paths with `split('.')`. -/
def splitDots (s : String) : List String :=
  (splitCharList '.' s.data).map (fun l => String.mk l)

/-- Argument value kinds distinguished by `verifyDirectiveArg`: a literal
boolean, a variable reference, or any other GraphQL value kind. -/
inductive ArgValue where
  | booleanValue (b : Bool)
  | variableRef (name : String)
  | otherKind

/-- A directive argument node (only its value is ever read). -/
structure ArgumentNode where
  value : ArgValue

/-- A directive node: its name and its (possibly empty) argument list. -/
structure DirectiveNode where
  name : String
  arguments : List ArgumentNode

/-- A selection node of the query AST. `field` covers both FieldNode and
FragmentSpread: the source only reads `kind === 'InlineFragment'`,
`name.value`, `directives` and `selectionSet.selections` (empty when the
selection set is absent), so a spread is a named node with no selections
whose name appears in the fragment table. -/
inductive SelectionNode where
  | field (name : String) (directives : List DirectiveNode)
      (selections : List SelectionNode)
  | inlineFragment (directives : List DirectiveNode)
      (selections : List SelectionNode)

/-- The directive list of a node (`node.directives`, absent treated as []). -/
def SelectionNode.dirs : SelectionNode → List DirectiveNode
  | .field _ ds _ => ds
  | .inlineFragment ds _ => ds

/-- Source `getNodes`: `selection.selectionSet.selections || []`. -/
def getNodes : SelectionNode → List SelectionNode
  | .field _ _ sels => sels
  | .inlineFragment _ sels => sels

/-- Variable bindings; a missing name models JS `undefined`. -/
abbrev VariablesValues := List (String × Bool)

/-- JS truthiness of a variable value (`undefined` is falsy). -/
def jsTruthyVar : Option Bool → Bool
  | some b => b
  | none => false

/-- Source `checkValue`: for `skip` the argument must be false to keep the
field, for `include` it must be true, any other directive name passes. -/
def checkValue (name : String) (value : Bool) : Bool :=
  if name = "skip" then !value
  else if name = "include" then value
  else true

/-- Source `verifyDirectiveArg`: a literal boolean is used directly, a
variable is resolved through the bindings, any other value kind returns
true without deciding. -/
def verifyDirectiveArg (name : String) (arg : ArgumentNode)
    (vars : VariablesValues) : Bool :=
  match arg.value with
  | .booleanValue b => checkValue name b
  | .variableRef vn => checkValue name (jsTruthyVar (assocLookup vars vn))
  | .otherKind => true

/-- The argument loop of `verifyDirective`: every argument must pass. -/
def verifyArgsLoop (name : String) : List ArgumentNode → VariablesValues → Bool
  | [], _ => true
  | a :: rest, vars =>
      if verifyDirectiveArg name a vars then verifyArgsLoop name rest vars
      else false

/-- Source `verifyDirective`: any directive not named include/skip is
ignored (returns true); otherwise all its arguments must pass. -/
def verifyDirective (directive : DirectiveNode)
    (vars : VariablesValues) : Bool :=
  if directive.name = "include" || directive.name = "skip" then
    verifyArgsLoop directive.name directive.arguments vars
  else true

/-- Source `verifyDirectives`: the loop over a node's directive list;
an absent or empty list returns true. -/
def verifyDirectives (directives : List DirectiveNode)
    (vars : VariablesValues) : Bool :=
  match directives with
  | [] => true
  | d :: rest =>
      if verifyDirective d vars then verifyDirectives rest vars else false

/-- A skip rule value: `false`/`true`, or a nested skip tree
(`type SkipValue = boolean | SkipTree`). -/
inductive SkipValue where
  | bool (b : Bool)
  | tree (entries : List (String × SkipValue))

/-- JS truthiness of a SkipValue: booleans by value, any object truthy. -/
def jsTruthySkip : SkipValue → Bool
  | .bool b => b
  | .tree _ => true

/-- One step of the `skipTree` pattern loop, written as recursion on the
remaining path segments with the current `propTree` value. A falsy slot is
(re)assigned `true` when the segment is last or the next segment is `*`
(which is then consumed), else an empty subtree; a truthy slot is kept and
descended into without consuming any `*`. Descending into a boolean and
then writing raises a TypeError in strict mode, modelled by `.error ()`. -/
def insertVal : SkipValue → List String → Except Unit SkipValue
  | cur, [] => .ok cur
  | .bool _, _ :: _ => .error ()
  | .tree t, prop :: rest =>
      match Option.filter jsTruthySkip (assocLookup t prop) with
      | some v =>
          match insertVal v rest with
          | .error e => .error e
          | .ok v2 => .ok (.tree (assocSet t prop v2))
      | none =>
          match rest with
          | [] => .ok (.tree (assocSet t prop (.bool true)))
          | "*" :: rest2 =>
              match insertVal (SkipValue.bool true) rest2 with
              | .error e => .error e
              | .ok v2 => .ok (.tree (assocSet t prop v2))
          | s :: rest2 =>
              match insertVal (SkipValue.tree []) (s :: rest2) with
              | .error e => .error e
              | .ok v2 => .ok (.tree (assocSet t prop v2))

/-- The outer loop of `skipTree` over the pattern list. -/
def skipTreeGo : List String → List (String × SkipValue) →
    Except Unit (List (String × SkipValue))
  | [], t => .ok t
  | p :: ps, t =>
      match insertVal (.tree t) (splitDots p) with
      | .error e => .error e
      | .ok (.tree t2) => skipTreeGo ps t2
      | .ok (.bool _) => .error ()

/-- Source `skipTree`: compiles the skip pattern list into a skip tree,
starting from the empty tree. -/
def skipTree (skip : List String) : Except Unit (List (String × SkipValue)) :=
  skipTreeGo skip []

/-- Literal chunks of a wildcard key: the model of
`key.replace(/\*/g, '.*')` viewed as chunks separated by `.*`. -/
def chunksOf (key : String) : List (List Char) :=
  splitCharList '*' key.data

/-- Unanchored regex test for chunks joined by `.*`: some position of the
string starts an in-order occurrence of all chunks. -/
def chunksMatch : List (List Char) → List Char → Bool
  | [], _ => true
  | c :: cs, s =>
      (List.range (s.length + 1)).any fun i =>
        List.isPrefixOf c (s.drop i) && chunksMatch cs (s.drop (i + c.length))

/-- Model of `new RegExp(key.replace(RX_AST, '.*')).test(node)`. -/
def rxTest (key : String) (node : String) : Bool :=
  chunksMatch (chunksOf key) node.data

/-- The wildcard loop of `verifySkip`: the first match whose value is
`true` wins outright; a match with any other value is recorded and
scanning continues (a later match overwrites it). -/
def wildcardGo (node : String) :
    List (String × SkipValue) → SkipValue → SkipValue
  | [], acc => acc
  | (k, v) :: rest, acc =>
      if rxTest k node then
        match v with
        | .bool true => .bool true
        | _ => wildcardGo node rest v
      else wildcardGo node rest acc

/-- Source `verifySkip`: a falsy scope means no skipping; an exact truthy
key is returned immediately; otherwise the keys containing `*` are scanned
in enumeration order. -/
def verifySkip (node : String) (skip : SkipValue) : SkipValue :=
  if jsTruthySkip skip then
    match skip with
    | .bool _ => .bool false
    | .tree t =>
        match Option.filter jsTruthySkip (assocLookup t node) with
        | some v => v
        | none =>
            wildcardGo node (t.filter fun p => p.1.data.contains '*')
              (.bool false)
  else .bool false

/-- A presence-map value: `false` (leaf) or a nested presence map
(`type MapResultKey = false | MapResult`). -/
inductive MapVal where
  | leaf
  | node (entries : List (String × MapVal))

/-- A presence map (`MapResult`), an insertion-ordered JS object. -/
abbrev MapResult := List (String × MapVal)

/-- Traversal options: the fragment table (fragment name to the selections
of its definition), the variable values, and the truthiness of the
caller's `withDirectives` flag. -/
structure TraverseOptions where
  fragments : List (String × List SelectionNode)
  vars : VariablesValues
  withVars : Bool

/-- Source `traverse`, with fuel: directive-rejected nodes are dropped;
inline fragments and fragment spreads are expanded transparently into the
same map and skip scope; a genuine field is omitted when its resolved skip
value is exactly `true`, otherwise it is merged into the map
(`root[name] = root[name] || (nodes.length ? {} : false)`) and its
children are traversed under the resolved skip value. -/
def traverse : Nat → TraverseOptions → List SelectionNode → MapResult →
    SkipValue → Option MapResult
  | 0, _, _, _, _ => none
  | _ + 1, _, [], root, _ => some root
  | fuel + 1, opts, node :: rest, root, skip =>
      if opts.withVars && !(verifyDirectives node.dirs opts.vars) then
        traverse fuel opts rest root skip
      else
        match node with
        | .inlineFragment _ sels =>
            match traverse fuel opts sels root skip with
            | none => none
            | some root2 => traverse fuel opts rest root2 skip
        | .field name _ kids =>
            match assocLookup opts.fragments name with
            | some fragSels =>
                match traverse fuel opts fragSels root skip with
                | none => none
                | some root2 => traverse fuel opts rest root2 skip
            | none =>
                match verifySkip name skip with
                | .bool true => traverse fuel opts rest root skip
                | nodeSkip =>
                    match assocLookup root name, kids with
                    | some (.node _), [] =>
                        traverse fuel opts rest root skip
                    | some (.node sub), _ :: _ =>
                        match traverse fuel opts kids sub nodeSkip with
                        | none => none
                        | some sub2 =>
                            traverse fuel opts rest
                              (assocSet root name (.node sub2)) skip
                    | _, [] =>
                        traverse fuel opts rest
                          (assocSet root name .leaf) skip
                    | _, _ :: _ =>
                        match traverse fuel opts kids [] nodeSkip with
                        | none => none
                        | some sub2 =>
                            traverse fuel opts rest
                              (assocSet root name (.node sub2)) skip

/-- The segment loop of `getBranch`: a missing entry or a `false` entry
ends the walk with the empty map. -/
def branchLoop : List String → MapResult → MapResult
  | [], t => t
  | s :: rest, t =>
      match assocLookup t s with
      | none => []
      | some .leaf => []
      | some (.node sub) => branchLoop rest sub

/-- Source `getBranch`: a falsy path (absent or the empty string) returns
the whole tree, otherwise the path is split on `.` and walked. -/
def getBranch (tree : MapResult) (path : Option String) : MapResult :=
  match path with
  | none => tree
  | some p => if p = "" then tree else branchLoop (splitDots p) tree

/-- The resolver execution-info object: primary field-node list, legacy
alias list (`fieldASTs`), current field name, fragment table, variables. -/
structure GraphQLResolveInfo where
  fieldNodes : Option (List SelectionNode)
  fieldASTs : Option (List SelectionNode)
  fieldName : String
  fragments : List (String × List SelectionNode)
  variableValues : VariablesValues

/-- The field-node list after the legacy normalization
(`if (!info.fieldNodes && info.fieldASTs) info.fieldNodes = info.fieldASTs`). -/
def effectiveFieldNodes (info : GraphQLResolveInfo) :
    Option (List SelectionNode) :=
  match info.fieldNodes with
  | some ns => some ns
  | none => info.fieldASTs

/-- The `find` of `verifyFieldNode`: the first node that has a name equal
to the current field name (inline fragments have no name). -/
def findFieldNode (fieldName : String) :
    List SelectionNode → Option SelectionNode
  | [] => none
  | n :: rest =>
      match n with
      | .field nm _ _ =>
          if nm = fieldName then some n else findFieldNode fieldName rest
      | _ => findFieldNode fieldName rest

/-- Source `verifyFieldNode`: null unless the found node has a selection
set (modelled as a nonempty selections list). -/
def verifyFieldNode (info : GraphQLResolveInfo) : Option SelectionNode :=
  match effectiveFieldNodes info with
  | none => none
  | some ns =>
      match findFieldNode info.fieldName ns with
      | some fn => if (getNodes fn).isEmpty then none else some fn
      | none => none

/-- The body of `verifyInfo` for a present info object. -/
def verifyInfoCore (info : GraphQLResolveInfo) : Option SelectionNode :=
  match effectiveFieldNodes info with
  | none => none
  | some _ => verifyFieldNode info

/-- Source `verifyInfo`: null for an absent info object or one without a
field-node list (after the legacy normalization). -/
def verifyInfo (info : Option GraphQLResolveInfo) : Option SelectionNode :=
  match info with
  | none => none
  | some i => verifyInfoCore i

/-- Extraction options (`FieldsListOptions`); `withDirectives` is kept
optional to model the undefined/default distinction of the source. -/
structure FieldsListOptions where
  path : Option String := none
  transform : List (String × String) := []
  withDirectives : Option Bool := none
  keepParentField : Bool := false
  skip : List String := []

/-- Source `parseOptions`: an absent options object is replaced by the
empty one (leaving `withDirectives` undefined), otherwise an undefined
`withDirectives` is defaulted to true. -/
def parseOptions (options : Option FieldsListOptions) : FieldsListOptions :=
  match options with
  | none => {}
  | some o =>
      match o.withDirectives with
      | none => { o with withDirectives := some true }
      | some _ => o

/-- Source `fieldsMap`: the empty map for an invalid info object,
otherwise the traversal of the matched field node's selections starting
from the empty map and the compiled skip tree, then the branch selection.
`none` stands for a non-result (fuel exhaustion or a thrown TypeError). -/
def fieldsMap (fuel : Nat) (info : Option GraphQLResolveInfo)
    (options : Option FieldsListOptions) : Option MapResult :=
  match info with
  | none => some []
  | some i =>
      match verifyInfoCore i with
      | none => some []
      | some fieldNode =>
          let o := parseOptions options
          match skipTree o.skip with
          | .error _ => none
          | .ok st =>
              match traverse fuel
                  { fragments := i.fragments, vars := i.variableValues,
                    withVars := o.withDirectives.getD false }
                  (getNodes fieldNode) [] (.tree st) with
              | none => none
              | some tree => some (getBranch tree o.path)

/-- The transform application used for list entries and leaf paths:
`transform[name] || name` (a falsy replacement keeps the original). -/
def applyTransform (transform : List (String × String)) (name : String) :
    String :=
  match assocLookup transform name with
  | some t => if t = "" then name else t
  | none => name

/-- Source `fieldsList`: the keys of the map, each renamed through the
transform table. Its `options` argument defaults to the empty object, so
it is always present. -/
def fieldsList (fuel : Nat) (info : Option GraphQLResolveInfo)
    (options : FieldsListOptions) : Option (List String) :=
  match fieldsMap fuel info (some options) with
  | none => none
  | some m => some (m.map fun p => applyTransform options.transform p.1)

/-- Source `toDotNotation`: prepends the parent path and a dot unless the
parent path is empty (falsy). -/
def toDotPath (parent child : String) : String :=
  if parent = "" then child else parent ++ "." ++ child

/-- One queue item of the `fieldsProjection` loop: for every key of the
item's tree in order, a sub-map is turned into a new queue item (its path
also recorded when `keepParentField` is set), and a leaf is recorded under
its transformed dot path. Returns the new items and the recorded keys, in
the order the source performs them. -/
def processEntries (transform : List (String × String)) (keepParent : Bool)
    (path : String) : MapResult → List (String × MapResult) × List String
  | [] => ([], [])
  | (k, v) :: es =>
      let rest := processEntries transform keepParent path es
      match v with
      | .node sub =>
          let dotted := toDotPath path k
          ((dotted, sub) :: rest.1,
           (if keepParent then [dotted] else []) ++ rest.2)
      | .leaf =>
          (rest.1, applyTransform transform (toDotPath path k) :: rest.2)

/-- The breadth-first work-list loop of `fieldsProjection`, with fuel;
recorded keys are written into the projection map in order. -/
def projLoop (fuel : Nat) (transform : List (String × String))
    (keepParent : Bool) : List (String × MapResult) → List (String × Nat) →
    Option (List (String × Nat))
  | queue, m =>
      match fuel, queue with
      | 0, _ => none
      | _ + 1, [] => some m
      | f + 1, (p, t) :: rest =>
          projLoop f transform keepParent
            (rest ++ (processEntries transform keepParent p t).1)
            ((processEntries transform keepParent p t).2.foldl
              (fun acc k => assocSet acc k 1) m)

/-- Source `fieldsProjection`: flattens the map of `fieldsMap` through the
work-list loop seeded with the root path and tree. -/
def fieldsProjection (fuel : Nat) (info : Option GraphQLResolveInfo)
    (options : Option FieldsListOptions) : Option (List (String × Nat)) :=
  match fieldsMap fuel info options with
  | none => none
  | some tree =>
      projLoop fuel ((options.getD {}).transform)
        ((options.getD {}).keepParentField) [("", tree)] []

/-! Concrete inputs used by the example-based claims and witnesses. -/

/-- The directive `@skip(if: true)` as an AST node. -/
def skipIfTrue : DirectiveNode := ⟨"skip", [⟨.booleanValue true⟩]⟩

/-- The directive `@include(if: true)` as an AST node. -/
def includeIfTrue : DirectiveNode := ⟨"include", [⟨.booleanValue true⟩]⟩

/-! ## Basic association-list lemmas -/

theorem assocLookup_mem {α : Type} {l : List (String × α)} {n : String}
    {v : α} (h : assocLookup l n = some v) : (n, v) ∈ l := by
  induction l with
  | nil => simp [assocLookup] at h
  | cons p rest ih =>
      rw [assocLookup] at h
      by_cases hk : p.1 = n
      · simp [hk] at h
        cases p with
        | mk a b =>
            simp at hk h
            subst hk
            subst h
            simp
      · simp [hk] at h
        exact List.mem_cons_of_mem _ (ih h)

theorem mem_keys_of_lookup {α : Type} {l : List (String × α)} {n : String}
    {v : α} (h : assocLookup l n = some v) : n ∈ l.map Prod.fst := by
  have := assocLookup_mem h
  exact List.mem_map.2 ⟨(n, v), this, rfl⟩

theorem assocLookup_eq_none {α : Type} {l : List (String × α)} {n : String} :
    assocLookup l n = none ↔ n ∉ l.map Prod.fst := by
  induction l with
  | nil => simp [assocLookup]
  | cons p rest ih =>
      rw [assocLookup]
      by_cases hk : p.1 = n
      · simp [hk]
      · simp [hk, ih, Ne.symm hk]

theorem assocLookup_set_self {α : Type} (l : List (String × α)) (n : String)
    (v : α) : assocLookup (assocSet l n v) n = some v := by
  induction l with
  | nil => simp [assocSet, assocLookup]
  | cons p rest ih =>
      rw [assocSet]
      by_cases hk : p.1 = n
      · simp [hk, assocLookup]
      · simp [hk, assocLookup, ih]

theorem assocLookup_set_ne {α : Type} (l : List (String × α)) (n n2 : String)
    (v : α) (h : n2 ≠ n) :
    assocLookup (assocSet l n v) n2 = assocLookup l n2 := by
  induction l with
  | nil =>
      simp [assocSet, assocLookup]
      exact fun hh => h hh.symm
  | cons p rest ih =>
      rw [assocSet]
      by_cases hk : p.1 = n
      · subst hk
        have hne : ¬ p.1 = n2 := fun hh => h hh.symm
        simp [assocLookup, hne]
      · simp [hk, assocLookup, ih]

theorem assocSet_keys_of_mem {α : Type} {l : List (String × α)} {n : String}
    (v : α) (h : n ∈ l.map Prod.fst) :
    (assocSet l n v).map Prod.fst = l.map Prod.fst := by
  induction l with
  | nil => simp at h
  | cons p rest ih =>
      rw [assocSet]
      by_cases hk : p.1 = n
      · simp [hk]
      · have : n ∈ rest.map Prod.fst := by
          simp at h
          rcases h with h | h
          · exact absurd h.symm hk
          · simpa using h
        simp [hk, ih this]

theorem assocSet_keys_of_not_mem {α : Type} {l : List (String × α)}
    {n : String} (v : α) (h : n ∉ l.map Prod.fst) :
    (assocSet l n v).map Prod.fst = l.map Prod.fst ++ [n] := by
  induction l with
  | nil => simp [assocSet]
  | cons p rest ih =>
      rw [assocSet]
      have hk : p.1 ≠ n := by
        intro hh
        exact h (by simp [hh])
      have : n ∉ rest.map Prod.fst := by
        intro hh
        exact h (by simp [hh])
      simp [hk, ih this]

theorem assocSet_of_lookup_eq {α : Type} {l : List (String × α)} {n : String}
    {v : α} (h : assocLookup l n = some v) : assocSet l n v = l := by
  induction l with
  | nil => simp [assocLookup] at h
  | cons p rest ih =>
      rw [assocLookup] at h
      rw [assocSet]
      by_cases hk : p.1 = n
      · simp [hk] at h ⊢
        cases p
        simp_all
      · simp [hk] at h ⊢
        exact ih h

theorem assocLookup_append {α : Type} (a b : List (String × α)) (n : String) :
    assocLookup (a ++ b) n =
      match assocLookup a n with
      | some v => some v
      | none => assocLookup b n := by
  induction a with
  | nil => simp [assocLookup]
  | cons p rest ih =>
      by_cases hk : p.1 = n
      · simp [assocLookup, hk]
      · simp [assocLookup, hk, ih]

/-! ## C7: branch extraction -/

/-- C7: the Branch Extractor splits the path on dots; at each segment a
missing entry or a `false` entry yields the empty map immediately, a
sub-map entry continues the walk; an absent or empty path returns the
whole map unchanged; it is a total function (it never throws), also on a
multi-segment path whose first segment is absent. -/
theorem getBranch_behavior :
    (∀ t : MapResult, getBranch t none = t) ∧
    (∀ t : MapResult, getBranch t (some "") = t) ∧
    (∀ (t : MapResult) (p : String), p ≠ "" →
        getBranch t (some p) = branchLoop (splitDots p) t) ∧
    (∀ (t : MapResult) (s : String) (rest : List String),
        assocLookup t s = none → branchLoop (s :: rest) t = []) ∧
    (∀ (t : MapResult) (s : String) (rest : List String),
        assocLookup t s = some .leaf → branchLoop (s :: rest) t = []) ∧
    (∀ (t : MapResult) (s : String) (rest : List String) (sub : MapResult),
        assocLookup t s = some (.node sub) →
        branchLoop (s :: rest) t = branchLoop rest sub) ∧
    getBranch [("z", .leaf)] (some "x.y") = [] := by
  refine ⟨fun t => rfl, fun t => rfl, fun t p hp => by simp [getBranch, hp],
    fun t s rest h => by simp [branchLoop, h],
    fun t s rest h => by simp [branchLoop, h],
    fun t s rest sub h => by simp [branchLoop, h], rfl⟩

/-- Witness for C7: evaluating the missing-first-segment case on the empty
map through the theorem itself. -/
theorem getBranch_behavior_witness :
    assocLookup ([] : MapResult) "x" = none ∧
      branchLoop ["x", "y"] ([] : MapResult) = [] :=
  ⟨rfl, getBranch_behavior.2.2.2.1 [] "x" ["y"] rfl⟩

/-! ## C6: empty map instead of an error for missing execution context -/

/-- C6: `fieldsMap` (hence `fieldsList` and `fieldsProjection`) returns the
empty map rather than an error whenever the info object is absent, when it
carries neither the primary field-node list nor the legacy alias, or when
the field node found for the current field name has no selection set. -/
theorem empty_map_on_invalid_info :
    (∀ (fuel : Nat) (options : Option FieldsListOptions),
        fieldsMap fuel none options = some []) ∧
    (∀ (fuel : Nat) (options : FieldsListOptions),
        fieldsList fuel none options = some []) ∧
    (∀ (fuel : Nat) (options : Option FieldsListOptions),
        fieldsProjection (fuel + 2) none options = some []) ∧
    (∀ i : GraphQLResolveInfo, i.fieldNodes = none → i.fieldASTs = none →
        verifyInfoCore i = none) ∧
    (∀ (i : GraphQLResolveInfo) (ns : List SelectionNode)
        (fn : SelectionNode), effectiveFieldNodes i = some ns →
        findFieldNode i.fieldName ns = some fn → getNodes fn = [] →
        verifyInfoCore i = none) ∧
    (∀ (fuel : Nat) (options : Option FieldsListOptions)
        (i : GraphQLResolveInfo), verifyInfoCore i = none →
        fieldsMap fuel (some i) options = some []) ∧
    (∀ (fuel : Nat) (options : FieldsListOptions) (i : GraphQLResolveInfo),
        verifyInfoCore i = none → fieldsList fuel (some i) options = some []) ∧
    (∀ (fuel : Nat) (options : Option FieldsListOptions)
        (i : GraphQLResolveInfo), verifyInfoCore i = none →
        fieldsProjection (fuel + 2) (some i) options = some []) := by
  have hmap : ∀ (fuel : Nat) (options : Option FieldsListOptions)
      (i : GraphQLResolveInfo), verifyInfoCore i = none →
      fieldsMap fuel (some i) options = some [] := by
    intro fuel options i h
    simp [fieldsMap, h]
  have hproj : ∀ (fuel : Nat) (options : Option FieldsListOptions)
      (i : GraphQLResolveInfo), verifyInfoCore i = none →
      fieldsProjection (fuel + 2) (some i) options = some [] := by
    intro fuel options i h
    simp [fieldsProjection, hmap (fuel + 2) options i h, projLoop,
      processEntries]
  refine ⟨fun fuel options => rfl, fun fuel options => rfl,
    fun fuel options => by simp [fieldsProjection, fieldsMap, projLoop, processEntries],
    ?_, ?_, hmap, ?_, hproj⟩
  · intro i h1 h2
    simp [verifyInfoCore, effectiveFieldNodes, h1, h2]
  · intro i ns fn h1 h2 h3
    simp [verifyInfoCore, verifyFieldNode, h1, h2, h3, List.isEmpty_iff]
  · intro fuel options i h
    simp [fieldsList, hmap fuel (some options) i h]

/-- Witness for C6: a concrete info object whose only field node for the
current field has no selection set, evaluated through the theorem. -/
theorem empty_map_on_invalid_info_witness :
    verifyInfoCore
        { fieldNodes := some [SelectionNode.field "q" [] []],
          fieldASTs := none, fieldName := "q", fragments := [],
          variableValues := [] } = none ∧
      fieldsMap 5
        (some { fieldNodes := some [SelectionNode.field "q" [] []],
                fieldASTs := none, fieldName := "q", fragments := [],
                variableValues := [] }) none = some [] := by
  have h1 : verifyInfoCore
      { fieldNodes := some [SelectionNode.field "q" [] []],
        fieldASTs := none, fieldName := "q", fragments := [],
        variableValues := [] } = none :=
    empty_map_on_invalid_info.2.2.2.2.1 _ [SelectionNode.field "q" [] []]
      (SelectionNode.field "q" [] []) rfl rfl rfl
  exact ⟨h1, empty_map_on_invalid_info.2.2.2.2.2.1 5 none _ h1⟩

/-! ## C5: directive conjunction and skip/include precedence -/

/-- C5: the Directive Evaluator keeps a node exactly when every directive
in its list individually permits it (the loop is a logical AND), and a
field annotated with both `@skip(if: true)` and `@include(if: true)` is
excluded by the walker for every variable binding. -/
theorem verifyDirectives_conjunction :
    (∀ (dirs : List DirectiveNode) (vars : VariablesValues),
        verifyDirectives dirs vars = true ↔
          ∀ d ∈ dirs, verifyDirective d vars = true) ∧
    (∀ vars : VariablesValues,
        verifyDirectives [skipIfTrue, includeIfTrue] vars = false) ∧
    (∀ (fuel : Nat) (vars : VariablesValues),
        traverse (fuel + 2) ⟨[], vars, true⟩
          [.field "f" [skipIfTrue, includeIfTrue] []] [] (.tree []) =
          some []) := by
  refine ⟨?_, ?_, ?_⟩
  · intro dirs vars
    induction dirs with
    | nil => simp [verifyDirectives]
    | cons d rest ih =>
        rw [verifyDirectives]
        by_cases hd : verifyDirective d vars = true
        · simp [hd, ih]
        · simp [hd]
  · intro vars
    simp [verifyDirectives, verifyDirective, skipIfTrue, includeIfTrue,
      verifyArgsLoop, verifyDirectiveArg, checkValue]
  · intro fuel vars
    simp [traverse, SelectionNode.dirs, verifyDirectives, verifyDirective,
      skipIfTrue, includeIfTrue, verifyArgsLoop, verifyDirectiveArg,
      checkValue]

/-- Witness for C5: the conjunction and the exclusion evaluated at empty
bindings through the theorem. -/
theorem verifyDirectives_conjunction_witness :
    verifyDirectives [skipIfTrue, includeIfTrue] [] = false ∧
      traverse 2 ⟨[], [], true⟩
        [.field "f" [skipIfTrue, includeIfTrue] []] [] (.tree []) =
        some [] :=
  ⟨verifyDirectives_conjunction.2.1 [],
   verifyDirectives_conjunction.2.2 0 []⟩

/-! ## C9: wildcard matching is unanchored -/

/-- The language of a wildcard key: the string decomposes into the key's
literal chunks in order with arbitrary (possibly empty) gaps — exactly an
unanchored match of the regex obtained by replacing each `*` by `.*`. -/
def ChunksDecomp : List (List Char) → List Char → Prop
  | [], _ => True
  | c :: cs, s => ∃ p r, s = p ++ c ++ r ∧ ChunksDecomp cs r

theorem chunksMatch_iff : ∀ (cs : List (List Char)) (s : List Char),
    chunksMatch cs s = true ↔ ChunksDecomp cs s := by
  intro cs
  induction cs with
  | nil => intro s; simp [chunksMatch, ChunksDecomp]
  | cons c cs ih =>
      intro s
      rw [chunksMatch, ChunksDecomp]
      constructor
      · intro h
        rw [List.any_eq_true] at h
        obtain ⟨i, _, hcond⟩ := h
        rw [Bool.and_eq_true] at hcond
        obtain ⟨hpre, hrest⟩ := hcond
        rw [List.isPrefixOf_iff_prefix] at hpre
        obtain ⟨t, ht⟩ := hpre
        refine ⟨s.take i, t, ?_, ?_⟩
        · conv_lhs => rw [← List.take_append_drop i s, ← ht]
          simp [List.append_assoc]
        · apply (ih _).1
          have hdr : s.drop (i + c.length) = t := by
            have h2 : (s.drop i).drop c.length = t := by
              rw [← ht, List.drop_left]
            rw [← h2, List.drop_drop, Nat.add_comm i c.length]
          rwa [hdr] at hrest
      · rintro ⟨p, r, hs, hd⟩
        rw [List.any_eq_true]
        refine ⟨p.length, ?_, ?_⟩
        · rw [List.mem_range]
          subst hs
          simp only [List.length_append]
          omega
        · rw [Bool.and_eq_true, List.isPrefixOf_iff_prefix]
          subst hs
          refine ⟨?_, ?_⟩
          · rw [List.append_assoc, List.drop_left]
            exact ⟨r, rfl⟩
          · rw [show p.length + c.length = (p ++ c).length by simp,
              List.drop_left]
            exact (ih _).2 hd

/-- C9: the wildcard test of `verifySkip` is an unanchored substring
match: a key matches a field name exactly when the name contains the key's
literal chunks in order anywhere inside it, so the key `a*` applies to any
name containing the letter `a` — in particular to `data`, which does not
start with `a`. -/
theorem wildcard_match_unanchored :
    (∀ (key : String) (s : List Char),
        rxTest key ⟨s⟩ = true ↔ ChunksDecomp (chunksOf key) s) ∧
    (∀ (name : String) (pre post : List Char),
        name.data = pre ++ ('a' :: post) →
        verifySkip name (.tree [("a*", .bool true)]) = .bool true) ∧
    (verifySkip "data" (.tree [("a*", .bool true)]) = .bool true ∧
      List.isPrefixOf "a".data "data".data = false) := by
  refine ⟨?_, ?_, rfl, rfl⟩
  · intro key s
    exact chunksMatch_iff (chunksOf key) s
  · intro name pre post hdata
    by_cases hx : ("a*" : String) = name
    · simp [verifySkip, jsTruthySkip, assocLookup, hx, Option.filter]
    · have hrx : rxTest "a*" name = true := by
        apply (chunksMatch_iff _ _).2
        show ChunksDecomp [['a'], []] name.data
        refine ⟨pre, post, by simp [hdata], post, [], by simp, trivial⟩
      simp only [verifySkip, jsTruthySkip, assocLookup, hx, if_false,
        if_true, Option.filter]
      simp [List.filter, wildcardGo, hrx]

/-- Witness for C9: the theorem applied at the field name `data`. -/
theorem wildcard_match_unanchored_witness :
    verifySkip "data" (.tree [("a*", .bool true)]) = .bool true :=
  wildcard_match_unanchored.2.1 "data" ['d'] ['t', 'a'] rfl

/-! ## C3: skip precedence -/

theorem wildcardGo_true (name : String) :
    ∀ (l : List (String × SkipValue)) (acc : SkipValue),
      (∃ k, (k, SkipValue.bool true) ∈ l ∧ rxTest k name = true) →
      wildcardGo name l acc = .bool true := by
  intro l
  induction l with
  | nil =>
      rintro acc ⟨k, hk, _⟩
      simp at hk
  | cons p rest ih =>
      rintro acc ⟨k, hk, hrx⟩
      obtain ⟨k0, v0⟩ := p
      rw [List.mem_cons] at hk
      by_cases htest : rxTest k0 name = true
      · rcases hk with heq | hmem
        · have hv0 : SkipValue.bool true = v0 := congrArg Prod.snd heq
          subst hv0
          simp [wildcardGo, htest]
        · cases v0 with
          | bool b =>
              cases b with
              | true => simp [wildcardGo, htest]
              | false =>
                  simp only [wildcardGo, htest, if_true]
                  exact ih _ ⟨k, hmem, hrx⟩
          | tree t0 =>
              simp only [wildcardGo, htest, if_true]
              exact ih _ ⟨k, hmem, hrx⟩
      · rcases hk with heq | hmem
        · have hk0 : k = k0 := congrArg Prod.fst heq
          exact absurd (hk0 ▸ hrx) htest
        · simp only [wildcardGo, htest, if_false]
          exact ih _ ⟨k, hmem, hrx⟩

/-- C3: with skip patterns `["a.b", "a.*"]`, resolving the scope under `a`
excludes both `b` (exact rule) and `c` (wildcard rule), while `a` itself
resolves to a sub-tree, not to `true`; and in general an exact truthy
entry is returned immediately (taking priority over any wildcard), while
among wildcard matches any entry carrying `true` forces the result `true`
(winning over sub-tree entries). -/
theorem verifySkip_precedence :
    (skipTree ["a.b", "a.*"] =
      .ok [("a", .tree [("b", .bool true), ("*", .bool true)])]) ∧
    (verifySkip "a" (.tree [("a", .tree [("b", .bool true), ("*", .bool true)])]) =
      .tree [("b", .bool true), ("*", .bool true)]) ∧
    (verifySkip "a" (.tree [("a", .tree [("b", .bool true), ("*", .bool true)])]) ≠
      .bool true) ∧
    (verifySkip "b" (.tree [("b", .bool true), ("*", .bool true)]) = .bool true) ∧
    (verifySkip "c" (.tree [("b", .bool true), ("*", .bool true)]) = .bool true) ∧
    (∀ (name : String) (t : List (String × SkipValue)) (v : SkipValue),
        assocLookup t name = some v → jsTruthySkip v = true →
        verifySkip name (.tree t) = v) ∧
    (∀ (name : String) (t : List (String × SkipValue)),
        Option.filter jsTruthySkip (assocLookup t name) = none →
        (∃ k, (k, SkipValue.bool true) ∈ t ∧ k.data.contains '*' = true ∧
          rxTest k name = true) →
        verifySkip name (.tree t) = .bool true) := by
  refine ⟨rfl, rfl, ?_, rfl, rfl, ?_, ?_⟩
  · intro h
    rw [show verifySkip "a"
        (.tree [("a", .tree [("b", .bool true), ("*", .bool true)])]) =
        SkipValue.tree [("b", .bool true), ("*", .bool true)] from rfl] at h
    exact SkipValue.noConfusion h
  · intro name t v h ht
    have hfilter : Option.filter jsTruthySkip (assocLookup t name) = some v := by
      rw [h]
      simp [Option.filter, ht]
    simp [verifySkip, hfilter]
    intro hcontra
    simp [jsTruthySkip] at hcontra
  · rintro name t hnone ⟨k, hmem, hstar, hrx⟩
    simp only [verifySkip, jsTruthySkip, hnone, if_true]
    apply wildcardGo_true
    refine ⟨k, List.mem_filter.2 ⟨hmem, ?_⟩, hrx⟩
    simpa using hstar

/-- Witness for C3: the general wildcard-true rule applied at field `c`
and the compiled scope under `a`. -/
theorem verifySkip_precedence_witness :
    verifySkip "c" (.tree [("b", .bool true), ("*", .bool true)]) =
      .bool true :=
  verifySkip_precedence.2.2.2.2.2.2 "c" [("b", .bool true), ("*", .bool true)]
    rfl ⟨"*", List.mem_cons_of_mem _ (List.mem_cons_self _ _), rfl, rfl⟩

/-! ## C4: wildcard consumption in the Skip-Pattern Compiler -/

/-- Counterexample to C4 as stated: compiling `["a.b", "a.*"]` materializes
the wildcard segment as the literal key `*` inside the node for `a`,
because the slot for `a` already exists when the second pattern is
processed, so the `true`-marking (and the wildcard skip) does not happen. -/
theorem skipTree_wildcard_key_materialized :
    skipTree ["a.b", "a.*"] =
      .ok [("a", .tree [("b", .bool true), ("*", .bool true)])] ∧
    "*" ∈ ([("b", SkipValue.bool true), ("*", SkipValue.bool true)]).map
      Prod.fst := by
  exact ⟨rfl, by simp⟩

/-- C4 (amended): when a segment is the last one of its pattern or the
next segment is `*`, and the tree slot for that segment is not already
occupied by a truthy value, the slot is marked `true` and the wildcard
segment is consumed without creating a tree level for it. (When the slot
is already occupied, the marking is skipped and a following `*` is
processed as an ordinary segment, as the counterexample shows.) -/
theorem skipTree_marks_true_when_absent :
    ∀ (t : List (String × SkipValue)) (prop : String),
      Option.filter jsTruthySkip (assocLookup t prop) = none →
      insertVal (.tree t) [prop] =
        .ok (.tree (assocSet t prop (.bool true))) ∧
      insertVal (.tree t) [prop, "*"] =
        .ok (.tree (assocSet t prop (.bool true))) := by
  intro t prop h
  constructor
  · simp [insertVal, h]
  · simp [insertVal, h]

/-- Witness for C4: the amended rule applied to the empty tree and the
segment `a`. -/
theorem skipTree_marks_true_when_absent_witness :
    insertVal (.tree []) ["a"] = .ok (.tree [("a", .bool true)]) ∧
      insertVal (.tree []) ["a", "*"] = .ok (.tree [("a", .bool true)]) :=
  skipTree_marks_true_when_absent [] "a" rfl

/-! ## C2: the end-to-end example -/

/-- The info object for the selection `{ a { b c } d }` on field `q`. -/
def c2info : GraphQLResolveInfo :=
  { fieldNodes := some [.field "q" [] [
      .field "a" [] [.field "b" [] [], .field "c" [] []],
      .field "d" [] []]],
    fieldASTs := none,
    fieldName := "q",
    fragments := [],
    variableValues := [] }

/-- Options with skip pattern `["a.c"]` and directive-awareness on. -/
def c2opts : FieldsListOptions :=
  { skip := ["a.c"], withDirectives := some true }

/-- C2: for `{ a { b c } d }` with skip pattern `["a.c"]`,
directive-awareness on and no directives present, the presence map is
`{ a: { b: false }, d: false }` and the projection without parent
retention holds exactly the keys `a.b` and `d` (recorded in the order
`d`, `a.b` by the breadth-first loop). -/
theorem example_skip_pattern_pipeline :
    fieldsMap 100 (some c2info) (some c2opts) =
      some [("a", .node [("b", .leaf)]), ("d", .leaf)] ∧
    fieldsProjection 100 (some c2info) (some c2opts) =
      some [("d", 1), ("a.b", 1)] ∧
    [("d", 1), ("a.b", 1)].Perm [("a.b", 1), ("d", 1)] := by
  exact ⟨rfl, rfl, by decide⟩

/-! ## C1: the presence map matches recursive fragment inlining -/

mutual
/-- A selection node carries no directives anywhere (deeply). -/
def noDirsSel : SelectionNode → Bool
  | .field _ ds sels => ds.isEmpty && noDirsList sels
  | .inlineFragment ds sels => ds.isEmpty && noDirsList sels
/-- A selection list carries no directives anywhere (deeply). -/
def noDirsList : List SelectionNode → Bool
  | [] => true
  | n :: rest => noDirsSel n && noDirsList rest
end

/-- Every fragment body in the table carries no directives. -/
def fragsNoDirs (frags : List (String × List SelectionNode)) : Bool :=
  frags.all fun p => noDirsList p.2

/-- A skip scope that excludes nothing: every field resolves to `false`.
Both the scope compiled from the empty pattern list and the literal
`false` passed down recursively satisfy it. -/
def TrivSkip (s : SkipValue) : Prop := ∀ n, verifySkip n s = .bool false

theorem trivSkip_bool_false : TrivSkip (.bool false) := fun _ => rfl

theorem trivSkip_tree_nil : TrivSkip (.tree []) := fun _ => rfl

/-- The specification-side inlining relation: the flat list of genuine
fields (name, child selections) obtained by recursively replacing every
inline fragment and every fragment spread by the fields of its body, in
order. Fragment cycles simply have no derivation. -/
inductive Inlines (frags : List (String × List SelectionNode)) :
    List SelectionNode → List (String × List SelectionNode) → Prop where
  | nil : Inlines frags [] []
  | inlineFrag {dirs : List DirectiveNode} {sels rest : List SelectionNode}
      {f1 f2 : List (String × List SelectionNode)} :
      Inlines frags sels f1 → Inlines frags rest f2 →
      Inlines frags (.inlineFragment dirs sels :: rest) (f1 ++ f2)
  | spread {name : String} {dirs : List DirectiveNode}
      {kids rest fragSels : List SelectionNode}
      {f1 f2 : List (String × List SelectionNode)} :
      assocLookup frags name = some fragSels →
      Inlines frags fragSels f1 → Inlines frags rest f2 →
      Inlines frags (.field name dirs kids :: rest) (f1 ++ f2)
  | fld {name : String} {dirs : List DirectiveNode}
      {kids rest : List SelectionNode}
      {f : List (String × List SelectionNode)} :
      assocLookup frags name = none →
      Inlines frags rest f →
      Inlines frags (.field name dirs kids :: rest) ((name, kids) :: f)

/-- All child selections requested for a field name across the flat
inlined list, concatenated in order (repeated requests merge). -/
def mergedKids (flat : List (String × List SelectionNode)) (n : String) :
    List SelectionNode :=
  ((flat.filter fun p => p.1 = n).map Prod.snd).flatten

mutual
/-- A stored presence-map value conforms to the merged child selections
of its field: a leaf means no child was ever requested, and a sub-map
recursively conforms to some inlining of the merged children. -/
inductive ValConform (frags : List (String × List SelectionNode)) :
    List SelectionNode → MapVal → Prop where
  | leaf : ValConform frags [] .leaf
  | node {kids : List SelectionNode}
      {flat : List (String × List SelectionNode)}
      {sub : MapResult} :
      kids ≠ [] →
      Inlines frags kids flat →
      MapConform frags flat sub →
      ValConform frags kids (.node sub)
/-- A presence map conforms to a flat inlined field list: its keys are
exactly the inlined field names, without duplicates, and every entry
conforms to the merged child selections of its name. This is the claim's
statement at every sibling level at once. -/
inductive MapConform (frags : List (String × List SelectionNode)) :
    List (String × List SelectionNode) → MapResult → Prop where
  | mk {flat : List (String × List SelectionNode)} {m : MapResult} :
      (m.map Prod.fst).Nodup →
      (∀ n : String, n ∈ m.map Prod.fst ↔ n ∈ flat.map Prod.fst) →
      (∀ (n : String) (v : MapVal), assocLookup m n = some v →
        ValConform frags (mergedKids flat n) v) →
      MapConform frags flat m
end

theorem noDirsList_cons {n : SelectionNode} {rest : List SelectionNode}
    (h : noDirsList (n :: rest) = true) :
    noDirsSel n = true ∧ noDirsList rest = true := by
  rw [noDirsList, Bool.and_eq_true] at h
  exact h

theorem noDirsSel_field {name : String} {ds : List DirectiveNode}
    {sels : List SelectionNode}
    (h : noDirsSel (.field name ds sels) = true) :
    ds = [] ∧ noDirsList sels = true := by
  rw [noDirsSel, Bool.and_eq_true, List.isEmpty_iff] at h
  exact h

theorem noDirsSel_inline {ds : List DirectiveNode}
    {sels : List SelectionNode}
    (h : noDirsSel (.inlineFragment ds sels) = true) :
    ds = [] ∧ noDirsList sels = true := by
  rw [noDirsSel, Bool.and_eq_true, List.isEmpty_iff] at h
  exact h

theorem Inlines.append {frags : List (String × List SelectionNode)}
    {a b : List SelectionNode}
    {fa fb : List (String × List SelectionNode)}
    (ha : Inlines frags a fa) (hb : Inlines frags b fb) :
    Inlines frags (a ++ b) (fa ++ fb) := by
  induction ha with
  | nil => simpa using hb
  | inlineFrag h1 h2 ih1 ih2 =>
      rw [List.cons_append, List.append_assoc]
      exact .inlineFrag h1 ih2
  | spread hl h1 h2 ih1 ih2 =>
      rw [List.cons_append, List.append_assoc]
      exact .spread hl h1 ih2
  | fld hl h ih =>
      rw [List.cons_append, List.cons_append]
      exact .fld hl ih

theorem mergedKids_append
    (f1 f2 : List (String × List SelectionNode)) (n : String) :
    mergedKids (f1 ++ f2) n = mergedKids f1 n ++ mergedKids f2 n := by
  simp [mergedKids, List.filter_append]

theorem mergedKids_single_same (n : String) (kids : List SelectionNode) :
    mergedKids [(n, kids)] n = kids := by
  simp [mergedKids]

theorem mergedKids_single_ne {n n2 : String} (kids : List SelectionNode)
    (h : n2 ≠ n) : mergedKids [(n, kids)] n2 = [] := by
  simp [mergedKids]
  intro hh
  exact absurd hh h

theorem mergedKids_of_not_mem {flat : List (String × List SelectionNode)}
    {n : String} (h : n ∉ flat.map Prod.fst) : mergedKids flat n = [] := by
  have : flat.filter (fun p => p.1 = n) = [] := by
    rw [List.filter_eq_nil_iff]
    intro p hp
    simp only [decide_eq_true_eq]
    intro hpn
    exact h (List.mem_map.2 ⟨p, hp, hpn⟩)
  simp [mergedKids, this]

theorem MapConform.nodup {frags flat : List (String × List SelectionNode)}
    {m : MapResult} (h : MapConform frags flat m) :
    (m.map Prod.fst).Nodup := by
  cases h with
  | mk hnd _ _ => exact hnd

theorem MapConform.keysIff {frags flat : List (String × List SelectionNode)}
    {m : MapResult} (h : MapConform frags flat m) (n : String) :
    n ∈ m.map Prod.fst ↔ n ∈ flat.map Prod.fst := by
  cases h with
  | mk _ hiff _ => exact hiff n

theorem MapConform.lookup {frags flat : List (String × List SelectionNode)}
    {m : MapResult} {n : String} {v : MapVal}
    (h : MapConform frags flat m) (hl : assocLookup m n = some v) :
    ValConform frags (mergedKids flat n) v := by
  cases h with
  | mk _ _ hval => exact hval n v hl

theorem valConform_leaf_eq {frags : List (String × List SelectionNode)}
    {kids : List SelectionNode} (h : ValConform frags kids .leaf) :
    kids = [] := by
  cases h
  rfl

theorem mapConform_nil (frags : List (String × List SelectionNode)) :
    MapConform frags [] [] := by
  refine .mk (by simp) (by simp) ?_
  intro n v h
  simp [assocLookup] at h

/-- Inserting one genuine field into a conforming map keeps it conforming
to the flat list extended by that field, provided the stored value
conforms to the previously merged children extended by the new ones. -/
theorem mapConform_insert {frags flat0 : List (String × List SelectionNode)}
    {m0 : MapResult} {name : String} {kids : List SelectionNode} {v : MapVal}
    (hc : MapConform frags flat0 m0)
    (hv : ValConform frags (mergedKids flat0 name ++ kids) v) :
    MapConform frags (flat0 ++ [(name, kids)]) (assocSet m0 name v) := by
  by_cases hmem : name ∈ m0.map Prod.fst
  · refine .mk ?_ ?_ ?_
    · rw [assocSet_keys_of_mem v hmem]
      exact hc.nodup
    · intro n
      rw [assocSet_keys_of_mem v hmem]
      simp only [List.map_append, List.mem_append, List.map_cons,
        List.map_nil, List.mem_singleton]
      constructor
      · intro hh
        exact Or.inl ((hc.keysIff n).1 hh)
      · rintro (hh | hh)
        · exact (hc.keysIff n).2 hh
        · exact hh ▸ hmem
    · intro n w hw
      by_cases hn : n = name
      · subst hn
        rw [assocLookup_set_self] at hw
        injection hw with hw
        subst hw
        rw [mergedKids_append, mergedKids_single_same]
        exact hv
      · rw [assocLookup_set_ne _ _ _ _ hn] at hw
        have := hc.lookup hw
        rwa [mergedKids_append, mergedKids_single_ne _ hn, List.append_nil]
  · refine .mk ?_ ?_ ?_
    · rw [assocSet_keys_of_not_mem v hmem]
      simp [List.nodup_append, hc.nodup, hmem]
    · intro n
      rw [assocSet_keys_of_not_mem v hmem]
      simp only [List.map_append, List.mem_append, List.map_cons,
        List.map_nil, List.mem_singleton]
      constructor
      · rintro (hh | hh)
        · exact Or.inl ((hc.keysIff n).1 hh)
        · exact Or.inr hh
      · rintro (hh | hh)
        · exact Or.inl ((hc.keysIff n).2 hh)
        · exact Or.inr hh
    · intro n w hw
      by_cases hn : n = name
      · subst hn
        rw [assocLookup_set_self] at hw
        injection hw with hw
        subst hw
        rw [mergedKids_append, mergedKids_single_same]
        exact hv
      · rw [assocLookup_set_ne _ _ _ _ hn] at hw
        have := hc.lookup hw
        rwa [mergedKids_append, mergedKids_single_ne _ hn, List.append_nil]

theorem valConform_node_inv {frags : List (String × List SelectionNode)}
    {kids : List SelectionNode} {sub : MapResult}
    (h : ValConform frags kids (.node sub)) :
    kids ≠ [] ∧ ∃ flat, Inlines frags kids flat ∧ MapConform frags flat sub := by
  cases h with
  | node hne hin hc => exact ⟨hne, _, hin, hc⟩

/-- The central induction for C1: a traversal without directives under a
trivially-false skip scope extends the conformance of the starting map by
exactly the inlining of the traversed nodes. -/
theorem traverse_step :
    ∀ (fuel : Nat) (opts : TraverseOptions) (nodes : List SelectionNode)
      (m0 : MapResult) (skip : SkipValue) (m : MapResult)
      (flat0 : List (String × List SelectionNode)),
      traverse fuel opts nodes m0 skip = some m →
      TrivSkip skip →
      noDirsList nodes = true →
      fragsNoDirs opts.fragments = true →
      MapConform opts.fragments flat0 m0 →
      ∃ flatN, Inlines opts.fragments nodes flatN ∧
        MapConform opts.fragments (flat0 ++ flatN) m := by
  intro fuel
  induction fuel with
  | zero =>
      intro opts nodes m0 skip m flat0 h
      simp [traverse] at h
  | succ fuel ih =>
      intro opts nodes m0 skip m flat0 h htriv hnd hfr hc
      cases nodes with
      | nil =>
          rw [traverse] at h
          injection h with h
          subst h
          exact ⟨[], .nil, by simpa using hc⟩
      | cons node rest =>
          obtain ⟨hd1, hd2⟩ := noDirsList_cons hnd
          cases node with
          | inlineFragment dirs sels =>
              obtain ⟨hds, hsels⟩ := noDirsSel_inline hd1
              subst hds
              rw [traverse] at h
              simp only [SelectionNode.dirs, verifyDirectives, Bool.not_true,
                Bool.and_false, Bool.false_eq_true, if_false] at h
              split at h
              · exact absurd h (by simp)
              · rename_i m1 htr
                obtain ⟨f1, hin1, hc1⟩ :=
                  ih opts sels m0 skip m1 flat0 htr htriv hsels hfr hc
                obtain ⟨f2, hin2, hc2⟩ :=
                  ih opts rest m1 skip m (flat0 ++ f1) h htriv hd2 hfr hc1
                refine ⟨f1 ++ f2, .inlineFrag hin1 hin2, ?_⟩
                rwa [List.append_assoc] at hc2
          | field name dirs kids =>
              obtain ⟨hds, hkids⟩ := noDirsSel_field hd1
              subst hds
              rw [traverse] at h
              simp only [SelectionNode.dirs, verifyDirectives, Bool.not_true,
                Bool.and_false, Bool.false_eq_true, if_false] at h
              split at h
              · -- fragment spread: the name is in the fragment table
                rename_i fragSels hfrag
                split at h
                · exact absurd h (by simp)
                · rename_i m1 htr
                  have hfnd : noDirsList fragSels = true := by
                    have hm := assocLookup_mem hfrag
                    have hall := List.all_eq_true.1 hfr _ hm
                    simpa using hall
                  obtain ⟨f1, hin1, hc1⟩ :=
                    ih opts fragSels m0 skip m1 flat0 htr htriv hfnd hfr hc
                  obtain ⟨f2, hin2, hc2⟩ :=
                    ih opts rest m1 skip m (flat0 ++ f1) h htriv hd2 hfr hc1
                  refine ⟨f1 ++ f2, .spread hfrag hin1 hin2, ?_⟩
                  rwa [List.append_assoc] at hc2
              · -- a genuine field
                rename_i hfrag
                split at h
                · -- verifySkip returned exactly true: impossible here
                  rename_i hskip
                  rw [htriv name] at hskip
                  exact absurd hskip (by simp)
                · rw [htriv name] at h
                  split at h
                  · -- existing sub-map entry, no children requested
                    rename_i entries hlook
                    have hv : ValConform opts.fragments
                        (mergedKids flat0 name ++ []) (.node entries) := by
                      rw [List.append_nil]
                      exact hc.lookup hlook
                    have hc1 := mapConform_insert hc hv
                    rw [assocSet_of_lookup_eq hlook] at hc1
                    obtain ⟨f2, hin2, hc2⟩ :=
                      ih opts rest m0 skip m (flat0 ++ [(name, [])]) h htriv
                        hd2 hfr hc1
                    refine ⟨(name, []) :: f2, .fld hfrag hin2, ?_⟩
                    rwa [List.append_assoc, List.singleton_append] at hc2
                  · -- existing sub-map entry, children requested: merge
                    rename_i sub k0 krest hlook
                    split at h
                    · exact absurd h (by simp)
                    · rename_i sub2 htr
                      obtain ⟨hne0, flatS, hinS, hcS⟩ :=
                        valConform_node_inv (hc.lookup hlook)
                      obtain ⟨fK, hinK, hcK⟩ :=
                        ih opts (k0 :: krest) sub (.bool false) sub2 flatS htr
                          trivSkip_bool_false hkids hfr hcS
                      have hv : ValConform opts.fragments
                          (mergedKids flat0 name ++ (k0 :: krest))
                          (.node sub2) :=
                        .node (by simp) (Inlines.append hinS hinK) hcK
                      have hc1 := mapConform_insert hc hv
                      obtain ⟨f2, hin2, hc2⟩ :=
                        ih opts rest (assocSet m0 name (.node sub2)) skip m
                          (flat0 ++ [(name, k0 :: krest)]) h htriv hd2 hfr hc1
                      refine ⟨(name, k0 :: krest) :: f2, .fld hfrag hin2, ?_⟩
                      rwa [List.append_assoc, List.singleton_append] at hc2
                  · -- absent or leaf entry, no children: store a leaf
                    rename_i hnonode
                    have hmerged : mergedKids flat0 name = [] := by
                      cases hlook : assocLookup m0 name with
                      | none =>
                          exact mergedKids_of_not_mem (fun hh =>
                            (assocLookup_eq_none.1 hlook)
                              ((hc.keysIff name).2 hh))
                      | some w =>
                          cases w with
                          | leaf => exact valConform_leaf_eq (hc.lookup hlook)
                          | node sub => exact (hnonode _ hlook).elim
                    have hv : ValConform opts.fragments
                        (mergedKids flat0 name ++ []) .leaf := by
                      rw [hmerged]
                      exact .leaf
                    have hc1 := mapConform_insert hc hv
                    obtain ⟨f2, hin2, hc2⟩ :=
                      ih opts rest (assocSet m0 name .leaf) skip m
                        (flat0 ++ [(name, [])]) h htriv hd2 hfr hc1
                    refine ⟨(name, []) :: f2, .fld hfrag hin2, ?_⟩
                    rwa [List.append_assoc, List.singleton_append] at hc2
                  · -- absent or leaf entry, children requested: fresh sub-map
                    rename_i k0 krest hnonode
                    have hmerged : mergedKids flat0 name = [] := by
                      cases hlook : assocLookup m0 name with
                      | none =>
                          exact mergedKids_of_not_mem (fun hh =>
                            (assocLookup_eq_none.1 hlook)
                              ((hc.keysIff name).2 hh))
                      | some w =>
                          cases w with
                          | leaf => exact valConform_leaf_eq (hc.lookup hlook)
                          | node sub => exact (hnonode _ hlook).elim
                    split at h
                    · exact absurd h (by simp)
                    · rename_i sub2 htr
                      obtain ⟨fK, hinK, hcK⟩ :=
                        ih opts (k0 :: krest) [] (.bool false) sub2 [] htr
                          trivSkip_bool_false hkids hfr (mapConform_nil _)
                      rw [List.nil_append] at hcK
                      have hv : ValConform opts.fragments
                          (mergedKids flat0 name ++ (k0 :: krest))
                          (.node sub2) := by
                        rw [hmerged, List.nil_append]
                        exact .node (by simp) hinK hcK
                      have hc1 := mapConform_insert hc hv
                      obtain ⟨f2, hin2, hc2⟩ :=
                        ih opts rest (assocSet m0 name (.node sub2)) skip m
                          (flat0 ++ [(name, k0 :: krest)]) h htriv hd2 hfr hc1
                      refine ⟨(name, k0 :: krest) :: f2, .fld hfrag hin2, ?_⟩
                      rwa [List.append_assoc, List.singleton_append] at hc2

/-- C1: for every selection list with no directives and the skip tree
compiled from the empty pattern list, the presence map built by the
walker from the empty root conforms, at every sibling level, to the flat
field list obtained by recursively inlining every named and inline
fragment: the keys at each level are exactly the inlined field names
(without duplicates, repeated requests merging into one entry), and every
sub-map recursively conforms to the merged child selections. -/
theorem traverse_presence_matches_inlining :
    ∀ (fuel : Nat) (opts : TraverseOptions) (nodes : List SelectionNode)
      (m : MapResult),
      noDirsList nodes = true →
      fragsNoDirs opts.fragments = true →
      traverse fuel opts nodes [] (.tree []) = some m →
      ∃ flat, Inlines opts.fragments nodes flat ∧
        MapConform opts.fragments flat m := by
  intro fuel opts nodes m hnd hfr h
  obtain ⟨flat, hin, hc⟩ :=
    traverse_step fuel opts nodes [] (.tree []) m [] h trivSkip_tree_nil hnd
      hfr (mapConform_nil _)
  exact ⟨flat, hin, by simpa using hc⟩

/-- A fragment table with one fragment `F` requesting `x` and `y { z }`. -/
def c1frags : List (String × List SelectionNode) :=
  [("F", [.field "x" [] [], .field "y" [] [.field "z" [] []]])]

/-- A selection requesting `x`, spreading `F`, and repeating `x`. -/
def c1nodes : List SelectionNode :=
  [.field "x" [] [], .field "F" [] [], .field "x" [] []]

/-- Witness for C1: the theorem applied to a traversal that expands a
fragment and merges a repeated field. -/
theorem traverse_presence_matches_inlining_witness :
    ∃ flat, Inlines c1frags c1nodes flat ∧
      MapConform c1frags flat [("x", .leaf), ("y", .node [("z", .leaf)])] :=
  traverse_presence_matches_inlining 100 ⟨c1frags, [], false⟩ c1nodes
    [("x", .leaf), ("y", .node [("z", .leaf)])] rfl rfl rfl

/-! ## C10 and C8: the flattened projection

Specification-side path collections: the dot paths of the internal
(sub-map) positions and of the leaf positions of a presence map, in
depth-first order. `recLoop` mirrors the breadth-first work-list loop of
`fieldsProjection` but collects the recorded keys instead of writing the
map; `dfsMap` collects the same keys depth first. -/

mutual
def nodeDotPathsVal (path k : String) : MapVal → List String
  | .leaf => []
  | .node sub => toDotPath path k :: nodeDotPathsMap (toDotPath path k) sub
def nodeDotPathsMap (path : String) : MapResult → List String
  | [] => []
  | (k, v) :: es => nodeDotPathsVal path k v ++ nodeDotPathsMap path es
end

mutual
def leafDotPathsVal (path k : String) : MapVal → List String
  | .leaf => [toDotPath path k]
  | .node sub => leafDotPathsMap (toDotPath path k) sub
def leafDotPathsMap (path : String) : MapResult → List String
  | [] => []
  | (k, v) :: es => leafDotPathsVal path k v ++ leafDotPathsMap path es
end

mutual
def dfsVal (transform : List (String × String)) (kp : Bool)
    (path k : String) : MapVal → List String
  | .leaf => [applyTransform transform (toDotPath path k)]
  | .node sub =>
      (if kp then [toDotPath path k] else []) ++
        dfsMap transform kp (toDotPath path k) sub
def dfsMap (transform : List (String × String)) (kp : Bool)
    (path : String) : MapResult → List String
  | [] => []
  | (k, v) :: es =>
      dfsVal transform kp path k v ++ dfsMap transform kp path es
end

/-- The recorded keys of the work-list loop, in recording order. -/
def recLoop (fuel : Nat) (transform : List (String × String))
    (keepParent : Bool) : List (String × MapResult) → Option (List String)
  | queue =>
      match fuel, queue with
      | 0, _ => none
      | _ + 1, [] => some []
      | f + 1, (p, t) :: rest =>
          match recLoop f transform keepParent
              (rest ++ (processEntries transform keepParent p t).1) with
          | none => none
          | some rs => some ((processEntries transform keepParent p t).2 ++ rs)

theorem projLoop_eq_recLoop :
    ∀ (fuel : Nat) (transform : List (String × String)) (kp : Bool)
      (queue : List (String × MapResult)) (macc : List (String × Nat)),
      projLoop fuel transform kp queue macc =
        (recLoop fuel transform kp queue).map
          (fun rs => rs.foldl (fun acc k => assocSet acc k 1) macc) := by
  intro fuel
  induction fuel with
  | zero => intro transform kp queue macc; rfl
  | succ fuel ih =>
      intro transform kp queue macc
      cases queue with
      | nil => rfl
      | cons item rest =>
          obtain ⟨p, t⟩ := item
          rw [projLoop, recLoop]
          rw [ih]
          cases recLoop fuel transform kp
              (rest ++ (processEntries transform kp p t).1) with
          | none => rfl
          | some rs => simp [List.foldl_append]

/-- Swapping the two middle blocks of a four-block concatenation is a
permutation. -/
theorem perm_append_swap {α : Type} (A B C D : List α) :
    ((A ++ B) ++ (C ++ D)).Perm ((A ++ C) ++ (B ++ D)) := by
  have h1 : (A ++ B) ++ (C ++ D) = A ++ ((B ++ C) ++ D) := by
    simp [List.append_assoc]
  have h2 : (A ++ C) ++ (B ++ D) = A ++ ((C ++ B) ++ D) := by
    simp [List.append_assoc]
  rw [h1, h2]
  exact List.Perm.append_left A
    (List.Perm.append_right D List.perm_append_comm)

/-- One level of the work-list loop is a permutation of the full
depth-first record list. -/
theorem dfsMap_level :
    ∀ (transform : List (String × String)) (kp : Bool) (p : String)
      (t : MapResult),
      (dfsMap transform kp p t).Perm
        ((processEntries transform kp p t).2 ++
          ((processEntries transform kp p t).1.flatMap
            fun q => dfsMap transform kp q.1 q.2)) := by
  intro transform kp p t
  induction t with
  | nil => simp [dfsMap, processEntries]
  | cons e es ih =>
      obtain ⟨k, v⟩ := e
      cases v with
      | leaf => exact List.Perm.cons _ ih
      | node sub =>
          exact (List.Perm.append_left _ ih).trans (perm_append_swap _ _ _ _)

/-- The breadth-first record list is a permutation of the depth-first
record lists of the queue items. -/
theorem recLoop_perm_dfs :
    ∀ (fuel : Nat) (transform : List (String × String)) (kp : Bool)
      (queue : List (String × MapResult)) (rs : List String),
      recLoop fuel transform kp queue = some rs →
      rs.Perm (queue.flatMap fun q => dfsMap transform kp q.1 q.2) := by
  intro fuel
  induction fuel with
  | zero => intro transform kp queue rs h; simp [recLoop] at h
  | succ fuel ih =>
      intro transform kp queue rs h
      cases queue with
      | nil =>
          rw [recLoop] at h
          injection h with h
          subst h
          simp
      | cons item rest =>
          obtain ⟨p, t⟩ := item
          rw [recLoop] at h
          cases hrec : recLoop fuel transform kp
              (rest ++ (processEntries transform kp p t).1) with
          | none => rw [hrec] at h; exact absurd h (by simp)
          | some rs2 =>
              rw [hrec] at h
              injection h with h
              subst h
              have hperm := ih transform kp _ rs2 hrec
              rw [List.flatMap_append] at hperm
              refine List.Perm.trans (List.Perm.append_left _ hperm) ?_
              refine List.Perm.trans
                (List.Perm.append_left _ List.perm_append_comm) ?_
              rw [← List.append_assoc]
              simp only [List.flatMap_cons]
              exact List.Perm.append_right _
                (dfsMap_level transform kp p t).symm

/-- The depth-first record list consists of the internal dot paths (when
parents are kept, untransformed) and the transformed leaf dot paths. -/
theorem dfsMap_content (transform : List (String × String)) (kp : Bool)
    (p : String) (t : MapResult) :
    (dfsMap transform kp p t).Perm
      ((if kp then nodeDotPathsMap p t else []) ++
        (leafDotPathsMap p t).map (applyTransform transform)) := by
  cases t with
  | nil => simp [dfsMap, nodeDotPathsMap, leafDotPathsMap]
  | cons e es =>
      obtain ⟨k, v⟩ := e
      cases v with
      | leaf =>
          have ih := dfsMap_content transform kp p es
          rw [dfsMap, dfsVal, nodeDotPathsMap, nodeDotPathsVal,
            leafDotPathsMap, leafDotPathsVal]
          exact (List.Perm.cons _ ih).trans List.perm_middle.symm
      | node sub =>
          have ih1 := dfsMap_content transform kp (toDotPath p k) sub
          have ih2 := dfsMap_content transform kp p es
          rw [dfsMap, dfsVal, nodeDotPathsMap, nodeDotPathsVal,
            leafDotPathsMap, leafDotPathsVal]
          cases kp with
          | false =>
              simp only [Bool.false_eq_true, if_false, List.nil_append,
                List.map_append] at ih1 ih2 ⊢
              exact List.Perm.append ih1 ih2
          | true =>
              simp only [if_true, List.map_append, List.cons_append,
                List.nil_append] at ih1 ih2 ⊢
              exact List.Perm.cons _
                ((List.Perm.append ih1 ih2).trans (perm_append_swap _ _ _ _))
termination_by sizeOf t
decreasing_by
  all_goals simp
  all_goals omega

theorem foldl_set_mem :
    ∀ (rs : List String) (macc : List (String × Nat)) (p : String),
      (p ∈ rs ∨ assocLookup macc p = some 1) →
      assocLookup (rs.foldl (fun acc k => assocSet acc k 1) macc) p =
        some 1 := by
  intro rs
  induction rs with
  | nil =>
      rintro macc p (h | h)
      · simp at h
      · simpa using h
  | cons r rest ih =>
      rintro macc p (h | h)
      · rw [List.mem_cons] at h
        rcases h with h | h
        · subst h
          exact ih _ _ (Or.inr (assocLookup_set_self _ _ _))
        · exact ih _ _ (Or.inl h)
      · by_cases hpr : p = r
        · subst hpr
          exact ih _ _ (Or.inr (assocLookup_set_self _ _ _))
        · refine ih _ _ (Or.inr ?_)
          rw [assocLookup_set_ne _ _ _ _ hpr]
          exact h

/-- The info object for the selection `{ a { b } }` on field `q`. -/
def c10info : GraphQLResolveInfo :=
  { fieldNodes := some [.field "q" [] [.field "a" [] [.field "b" [] []]]],
    fieldASTs := none, fieldName := "q", fragments := [],
    variableValues := [] }

/-- Options keeping parent fields, with a transform entry for the
intermediate path `a`. -/
def c10opts : FieldsListOptions :=
  { transform := [("a", "z")], keepParentField := true }

/-- C10: the transform table only applies to leaf dot paths: with parent
retention on, every intermediate (non-leaf) position of the presence map
is recorded in the projection under its original, untransformed dot path,
for every transform table — concretely, with transform `a ↦ z` the
projection still contains the key `a` (and no `z`). -/
theorem projection_parent_paths_untransformed :
    (∀ (fuel : Nat) (info : Option GraphQLResolveInfo)
        (options : Option FieldsListOptions) (tree : MapResult)
        (proj : List (String × Nat)),
      (options.getD {}).keepParentField = true →
      fieldsMap fuel info options = some tree →
      fieldsProjection fuel info options = some proj →
      ∀ p ∈ nodeDotPathsMap "" tree, assocLookup proj p = some 1) ∧
    fieldsProjection 100 (some c10info) (some c10opts) =
      some [("a", 1), ("a.b", 1)] := by
  refine ⟨?_, rfl⟩
  intro fuel info options tree proj hkp hmap hproj p hp
  rw [fieldsProjection, hmap] at hproj
  have hproj2 : projLoop fuel (options.getD {}).transform
      (options.getD {}).keepParentField [("", tree)] [] = some proj := hproj
  rw [projLoop_eq_recLoop] at hproj2
  cases hrec : recLoop fuel (options.getD {}).transform
      (options.getD {}).keepParentField [("", tree)] with
  | none => rw [hrec] at hproj2; exact absurd hproj2 (by simp)
  | some rs =>
      rw [hrec] at hproj2
      simp only [Option.map_some'] at hproj2
      injection hproj2 with hproj2
      subst hproj2
      have hperm := recLoop_perm_dfs fuel _ _ _ rs hrec
      have hpin : p ∈ rs := by
        rw [hperm.mem_iff]
        simp only [List.flatMap_cons, List.flatMap_nil, List.append_nil]
        rw [(dfsMap_content _ _ _ _).mem_iff, hkp]
        simp only [if_true, List.mem_append]
        exact Or.inl hp
      exact foldl_set_mem rs [] p (Or.inl hpin)

/-- Witness for C10: the general statement applied to the concrete call
whose transform names the parent path `a`. -/
theorem projection_parent_paths_untransformed_witness :
    assocLookup [("a", 1), ("a.b", 1)] "a" = some 1 :=
  projection_parent_paths_untransformed.1 100 (some c10info) (some c10opts)
    [("a", .node [("b", .leaf)])] [("a", 1), ("a.b", 1)] rfl rfl
    projection_parent_paths_untransformed.2 "a" (by simp [nodeDotPathsMap,
      nodeDotPathsVal, toDotPath])

/-! ## C8: distinctness of the recorded projection paths

Field keys of a presence map coming from a parsed GraphQL query are
nonempty and contain no dot; under that assumption the dot paths of
distinct tree positions are distinct strings. The positions are tracked
as segment lists and joined by dots. -/

/-- A field key as produced by the external parser: nonempty, no dot. -/
def validKey (k : String) : Bool :=
  !(k.data.isEmpty) && !(k.data.contains '.')

mutual
def validKeysVal : MapVal → Bool
  | .leaf => true
  | .node sub => validKeysMap sub
def validKeysMap : MapResult → Bool
  | [] => true
  | (k, v) :: es => validKey k && validKeysVal v && validKeysMap es
end

mutual
def nodupKeysVal : MapVal → Bool
  | .leaf => true
  | .node sub => nodupKeysMap sub
def nodupKeysMap : MapResult → Bool
  | [] => true
  | (k, v) :: es =>
      !((es.map Prod.fst).contains k) && nodupKeysVal v && nodupKeysMap es
end

mutual
def nodeSegsVal (base : List String) (k : String) : MapVal → List (List String)
  | .leaf => []
  | .node sub => (base ++ [k]) :: nodeSegsMap (base ++ [k]) sub
def nodeSegsMap (base : List String) : MapResult → List (List String)
  | [] => []
  | (k, v) :: es => nodeSegsVal base k v ++ nodeSegsMap base es
end

mutual
def leafSegsVal (base : List String) (k : String) : MapVal → List (List String)
  | .leaf => [base ++ [k]]
  | .node sub => leafSegsMap (base ++ [k]) sub
def leafSegsMap (base : List String) : MapResult → List (List String)
  | [] => []
  | (k, v) :: es => leafSegsVal base k v ++ leafSegsMap base es
end

/-- Joins path segments with dots (the path string of a position). -/
def joinDots : List String → String
  | [] => ""
  | [s] => s
  | s :: t :: rest => s ++ "." ++ joinDots (t :: rest)

theorem validKey_ne_empty {k : String} (h : validKey k = true) : k ≠ "" := by
  intro hk
  subst hk
  simp [validKey] at h

theorem validKey_no_dot {k : String} (h : validKey k = true) :
    '.' ∉ k.data := by
  rw [validKey, Bool.and_eq_true] at h
  intro hd
  have := h.2
  simp at this
  exact this hd

theorem append_dot_ne_empty (a x : String) : a ++ "." ++ x ≠ "" := by
  intro h
  have hd := congrArg String.data h
  rw [String.data_append, String.data_append] at hd
  simp at hd

theorem joinDots_ne_empty :
    ∀ (l : List String), l ≠ [] → (∀ x ∈ l, validKey x = true) →
      joinDots l ≠ "" := by
  intro l hne hv
  match l with
  | [s] => exact validKey_ne_empty (hv s (by simp))
  | s :: t :: rest => exact append_dot_ne_empty s (joinDots (t :: rest))

theorem toDotPath_joinDots :
    ∀ (l : List String) (k : String), (∀ x ∈ l, validKey x = true) →
      toDotPath (joinDots l) k = joinDots (l ++ [k]) := by
  intro l
  induction l with
  | nil => intro k hv; simp [toDotPath, joinDots]
  | cons a rest ih =>
      intro k hv
      cases rest with
      | nil =>
          have ha : a ≠ "" := validKey_ne_empty (hv a (by simp))
          simp [toDotPath, joinDots, ha]
      | cons b rest2 =>
          have hne : joinDots (a :: b :: rest2) ≠ "" := by
            rw [joinDots]
            exact append_dot_ne_empty _ _
          rw [toDotPath, if_neg hne]
          have ihk := ih k (fun x hx => hv x (by simp [hx]))
          have hsub : joinDots (b :: rest2) ≠ "" :=
            joinDots_ne_empty _ (by simp) (fun x hx => hv x (by simp [hx]))
          rw [toDotPath, if_neg hsub, List.cons_append] at ihk
          show joinDots (a :: b :: rest2) ++ "." ++ k =
            joinDots ((a :: b :: rest2) ++ [k])
          rw [List.cons_append, List.cons_append]
          simp only [joinDots]
          rw [← ihk]
          simp [String.append_assoc]

theorem dot_split_unique :
    ∀ (xs ys u v : List Char), '.' ∉ xs → '.' ∉ ys →
      xs ++ '.' :: u = ys ++ '.' :: v → xs = ys ∧ u = v := by
  intro xs
  induction xs with
  | nil =>
      intro ys u v hx hy h
      cases ys with
      | nil =>
          simp at h
          exact ⟨rfl, h⟩
      | cons c ys2 =>
          simp at h
          exact absurd (h.1 ▸ List.mem_cons_self c ys2) (h.1 ▸ hy)
  | cons x xs2 ih =>
      intro ys u v hx hy h
      cases ys with
      | nil =>
          simp at h
          exact absurd (h.1 ▸ List.mem_cons_self x xs2) (h.1 ▸ hx)
      | cons c ys2 =>
          simp at h
          obtain ⟨hxc, hrest⟩ := h
          have hx2 : '.' ∉ xs2 := fun hh => hx (List.mem_cons_of_mem _ hh)
          have hy2 : '.' ∉ ys2 := fun hh => hy (List.mem_cons_of_mem _ hh)
          obtain ⟨h1, h2⟩ := ih ys2 u v hx2 hy2 hrest
          exact ⟨by rw [hxc, h1], h2⟩

theorem string_data_inj {a b : String} (h : a.data = b.data) : a = b := by
  cases a
  cases b
  simp_all

theorem joinDots_inj :
    ∀ (l1 l2 : List String), l1 ≠ [] → l2 ≠ [] →
      (∀ x ∈ l1, validKey x = true) → (∀ x ∈ l2, validKey x = true) →
      joinDots l1 = joinDots l2 → l1 = l2 := by
  intro l1
  induction l1 with
  | nil => intro l2 h1; exact absurd rfl h1
  | cons a r1 ih =>
      intro l2 h1 h2 hv1 hv2 h
      cases l2 with
      | nil => exact absurd rfl h2
      | cons b r2 =>
          have hva : validKey a = true := hv1 a (by simp)
          have hvb : validKey b = true := hv2 b (by simp)
          cases r1 with
          | nil =>
              cases r2 with
              | nil => rw [show a = b by simpa [joinDots] using h]
              | cons c2 s2 =>
                  rw [joinDots, joinDots] at h
                  have hd := congrArg String.data h
                  rw [String.data_append, String.data_append] at hd
                  have : '.' ∈ a.data := by
                    rw [hd]
                    simp
                  exact absurd this (validKey_no_dot hva)
          | cons c1 s1 =>
              cases r2 with
              | nil =>
                  rw [joinDots, joinDots] at h
                  have hd := congrArg String.data h
                  rw [String.data_append, String.data_append] at hd
                  have : '.' ∈ b.data := by
                    rw [← hd]
                    simp
                  exact absurd this (validKey_no_dot hvb)
              | cons c2 s2 =>
                  rw [joinDots, joinDots] at h
                  have hd := congrArg String.data h
                  rw [String.data_append, String.data_append,
                    String.data_append, String.data_append] at hd
                  have hd2 : a.data ++ '.' :: (joinDots (c1 :: s1)).data =
                      b.data ++ '.' :: (joinDots (c2 :: s2)).data := by
                    simpa using hd
                  obtain ⟨hab, hjj⟩ :=
                    dot_split_unique _ _ _ _ (validKey_no_dot hva)
                      (validKey_no_dot hvb) hd2
                  have hab2 : a = b := string_data_inj hab
                  have hjj2 := string_data_inj hjj
                  have := ih (c2 :: s2) (by simp) (by simp)
                    (fun x hx => hv1 x (by simp [hx]))
                    (fun x hx => hv2 x (by simp [hx])) hjj2
                  rw [hab2, this]

theorem validKeysMap_cons {k : String} {v : MapVal} {es : MapResult}
    (h : validKeysMap ((k, v) :: es) = true) :
    validKey k = true ∧ validKeysVal v = true ∧ validKeysMap es = true := by
  rw [validKeysMap, Bool.and_eq_true, Bool.and_eq_true] at h
  exact ⟨h.1.1, h.1.2, h.2⟩

theorem nodupKeysMap_cons {k : String} {v : MapVal} {es : MapResult}
    (h : nodupKeysMap ((k, v) :: es) = true) :
    k ∉ es.map Prod.fst ∧ nodupKeysVal v = true ∧ nodupKeysMap es = true := by
  rw [nodupKeysMap, Bool.and_eq_true, Bool.and_eq_true] at h
  refine ⟨?_, h.1.2, h.2⟩
  have := h.1.1
  simpa using this

/-- Under valid keys, the dot-path lists are the joined segment lists
(auxiliary form, by induction on a size bound). -/
theorem segs_bridge_aux :
    ∀ (n : Nat) (base : List String) (t : MapResult), sizeOf t ≤ n →
      validKeysMap t = true → (∀ x ∈ base, validKey x = true) →
      nodeDotPathsMap (joinDots base) t = (nodeSegsMap base t).map joinDots ∧
      leafDotPathsMap (joinDots base) t =
        (leafSegsMap base t).map joinDots := by
  intro n
  induction n with
  | zero =>
      intro base t hsz
      cases t <;> simp at hsz
  | succ n ih =>
      intro base t hsz hv hb
      cases t with
      | nil =>
          simp [nodeDotPathsMap, nodeSegsMap, leafDotPathsMap, leafSegsMap]
      | cons e es =>
          obtain ⟨k, v⟩ := e
          obtain ⟨hvk, hvv, hves⟩ := validKeysMap_cons hv
          have hdot := toDotPath_joinDots base k hb
          have hb2 : ∀ x ∈ base ++ [k], validKey x = true := by
            intro x hx
            rw [List.mem_append] at hx
            rcases hx with hx | hx
            · exact hb x hx
            · simp at hx
              subst hx
              exact hvk
          have hes : sizeOf es ≤ n := by
            simp at hsz
            omega
          have ihes := ih base es hes hves hb
          cases v with
          | leaf =>
              rw [nodeDotPathsMap, nodeDotPathsVal, nodeSegsMap, nodeSegsVal,
                leafDotPathsMap, leafDotPathsVal, leafSegsMap, leafSegsVal]
              constructor
              · simpa using ihes.1
              · simp [hdot, ihes.2]
          | node sub =>
              have hsub : sizeOf sub ≤ n := by
                simp at hsz
                omega
              have ihsub := ih (base ++ [k]) sub hsub hvv hb2
              rw [nodeDotPathsMap, nodeDotPathsVal, nodeSegsMap, nodeSegsVal,
                leafDotPathsMap, leafDotPathsVal, leafSegsMap, leafSegsVal]
              constructor
              · rw [hdot]
                simp [ihsub.1, ihes.1]
              · rw [hdot]
                simp [ihsub.2, ihes.2]

theorem segs_bridge (base : List String) (t : MapResult)
    (hv : validKeysMap t = true) (hb : ∀ x ∈ base, validKey x = true) :
    nodeDotPathsMap (joinDots base) t = (nodeSegsMap base t).map joinDots ∧
    leafDotPathsMap (joinDots base) t =
      (leafSegsMap base t).map joinDots :=
  segs_bridge_aux (sizeOf t) base t (Nat.le_refl _) hv hb

/-- Every recorded position strictly extends its base by a key of the
current level (auxiliary form). -/
theorem segs_extend_aux :
    ∀ (n : Nat) (base : List String) (t : MapResult) (s : List String),
      sizeOf t ≤ n →
      s ∈ nodeSegsMap base t ++ leafSegsMap base t →
      ∃ k tail, k ∈ t.map Prod.fst ∧ s = base ++ k :: tail := by
  intro n
  induction n with
  | zero =>
      intro base t s hsz
      cases t <;> simp at hsz
  | succ n ih =>
      intro base t s hsz hs
      cases t with
      | nil => simp [nodeSegsMap, leafSegsMap] at hs
      | cons e es =>
          obtain ⟨k, v⟩ := e
          have hes : sizeOf es ≤ n := by
            simp at hsz
            omega
          rw [nodeSegsMap, leafSegsMap, List.mem_append, List.mem_append,
            List.mem_append] at hs
          cases v with
          | leaf =>
              rcases hs with (hs | hs) | (hs | hs)
              · simp [nodeSegsVal] at hs
              · obtain ⟨k2, tail, hk2, hseq⟩ :=
                  ih base es s hes (List.mem_append.2 (Or.inl hs))
                exact ⟨k2, tail, by simp [hk2], hseq⟩
              · rw [leafSegsVal, List.mem_singleton] at hs
                exact ⟨k, [], by simp, by simp [hs]⟩
              · obtain ⟨k2, tail, hk2, hseq⟩ :=
                  ih base es s hes (List.mem_append.2 (Or.inr hs))
                exact ⟨k2, tail, by simp [hk2], hseq⟩
          | node sub =>
              have hsub : sizeOf sub ≤ n := by
                simp at hsz
                omega
              rcases hs with (hs | hs) | (hs | hs)
              · rw [nodeSegsVal, List.mem_cons] at hs
                rcases hs with hs | hs
                · exact ⟨k, [], by simp, by simp [hs]⟩
                · obtain ⟨k2, tail, hk2, hseq⟩ :=
                    ih (base ++ [k]) sub s hsub
                      (List.mem_append.2 (Or.inl hs))
                  refine ⟨k, k2 :: tail, by simp, ?_⟩
                  rw [hseq]
                  simp
              · obtain ⟨k2, tail, hk2, hseq⟩ :=
                  ih base es s hes (List.mem_append.2 (Or.inl hs))
                exact ⟨k2, tail, by simp [hk2], hseq⟩
              · rw [leafSegsVal] at hs
                obtain ⟨k2, tail, hk2, hseq⟩ :=
                  ih (base ++ [k]) sub s hsub
                    (List.mem_append.2 (Or.inr hs))
                refine ⟨k, k2 :: tail, by simp, ?_⟩
                rw [hseq]
                simp
              · obtain ⟨k2, tail, hk2, hseq⟩ :=
                  ih base es s hes (List.mem_append.2 (Or.inr hs))
                exact ⟨k2, tail, by simp [hk2], hseq⟩

theorem segs_extend (base : List String) (t : MapResult) (s : List String)
    (hs : s ∈ nodeSegsMap base t ++ leafSegsMap base t) :
    ∃ k tail, k ∈ t.map Prod.fst ∧ s = base ++ k :: tail :=
  segs_extend_aux (sizeOf t) base t s (Nat.le_refl _) hs

/-- All segments of every recorded position are valid keys
(auxiliary form). -/
theorem segs_valid_aux :
    ∀ (n : Nat) (base : List String) (t : MapResult),
      sizeOf t ≤ n →
      validKeysMap t = true → (∀ x ∈ base, validKey x = true) →
      ∀ s ∈ nodeSegsMap base t ++ leafSegsMap base t,
        ∀ x ∈ s, validKey x = true := by
  intro n
  induction n with
  | zero =>
      intro base t hsz
      cases t <;> simp at hsz
  | succ n ih =>
      intro base t hsz hv hb s hs
      cases t with
      | nil => simp [nodeSegsMap, leafSegsMap] at hs
      | cons e es =>
          obtain ⟨k, v⟩ := e
          obtain ⟨hvk, hvv, hves⟩ := validKeysMap_cons hv
          have hes : sizeOf es ≤ n := by
            simp at hsz
            omega
          have hb2 : ∀ x ∈ base ++ [k], validKey x = true := by
            intro x hx
            rw [List.mem_append] at hx
            rcases hx with hx | hx
            · exact hb x hx
            · simp at hx
              subst hx
              exact hvk
          rw [nodeSegsMap, leafSegsMap, List.mem_append, List.mem_append,
            List.mem_append] at hs
          cases v with
          | leaf =>
              rcases hs with (hs | hs) | (hs | hs)
              · simp [nodeSegsVal] at hs
              · exact ih base es hes hves hb s
                  (List.mem_append.2 (Or.inl hs))
              · rw [leafSegsVal, List.mem_singleton] at hs
                subst hs
                exact hb2
              · exact ih base es hes hves hb s
                  (List.mem_append.2 (Or.inr hs))
          | node sub =>
              have hsub : sizeOf sub ≤ n := by
                simp at hsz
                omega
              rcases hs with (hs | hs) | (hs | hs)
              · rw [nodeSegsVal, List.mem_cons] at hs
                rcases hs with hs | hs
                · subst hs
                  exact hb2
                · exact ih (base ++ [k]) sub hsub hvv hb2 s
                    (List.mem_append.2 (Or.inl hs))
              · exact ih base es hes hves hb s
                  (List.mem_append.2 (Or.inl hs))
              · rw [leafSegsVal] at hs
                exact ih (base ++ [k]) sub hsub hvv hb2 s
                  (List.mem_append.2 (Or.inr hs))
              · exact ih base es hes hves hb s
                  (List.mem_append.2 (Or.inr hs))

theorem segs_valid (base : List String) (t : MapResult)
    (hv : validKeysMap t = true) (hb : ∀ x ∈ base, validKey x = true)
    (s : List String) (hs : s ∈ nodeSegsMap base t ++ leafSegsMap base t) :
    ∀ x ∈ s, validKey x = true :=
  segs_valid_aux (sizeOf t) base t (Nat.le_refl _) hv hb s hs

/-- With deeply nodup keys, the recorded positions are pairwise distinct
segment lists (auxiliary form). -/
theorem segs_nodup_aux :
    ∀ (n : Nat) (base : List String) (t : MapResult),
      sizeOf t ≤ n → nodupKeysMap t = true →
      (nodeSegsMap base t ++ leafSegsMap base t).Nodup := by
  intro n
  induction n with
  | zero =>
      intro base t hsz
      cases t <;> simp at hsz
  | succ n ih =>
      intro base t hsz hnd
      cases t with
      | nil => simp [nodeSegsMap, leafSegsMap]
      | cons e es =>
          obtain ⟨k, v⟩ := e
          obtain ⟨hk, hv, hes⟩ := nodupKeysMap_cons hnd
          have hsizes : sizeOf es ≤ n := by
            simp at hsz
            omega
          have ihes := ih base es hsizes hes
          rw [nodeSegsMap, leafSegsMap]
          have hperm := perm_append_swap (nodeSegsVal base k v)
            (nodeSegsMap base es) (leafSegsVal base k v)
            (leafSegsMap base es)
          rw [hperm.nodup_iff, List.nodup_append]
          refine ⟨?_, ihes, ?_⟩
          · cases v with
            | leaf => simp [nodeSegsVal, leafSegsVal]
            | node sub =>
                have hsub : sizeOf sub ≤ n := by
                  simp at hsz
                  omega
                rw [nodeSegsVal, leafSegsVal, List.cons_append,
                  List.nodup_cons]
                constructor
                · intro hmem
                  obtain ⟨k2, tail, _, hseq⟩ :=
                    segs_extend (base ++ [k]) sub _ hmem
                  have := congrArg List.length hseq
                  simp at this
                · exact ih (base ++ [k]) sub hsub hv
          · intro s hsV hsE
            have h1 : ∃ tail, s = base ++ k :: tail := by
              cases v with
              | leaf =>
                  simp only [nodeSegsVal, leafSegsVal, List.nil_append,
                    List.mem_singleton] at hsV
                  exact ⟨[], by simp [hsV]⟩
              | node sub =>
                  rw [nodeSegsVal, leafSegsVal, List.cons_append,
                    List.mem_cons] at hsV
                  rcases hsV with hsV | hsV
                  · exact ⟨[], by simp [hsV]⟩
                  · obtain ⟨k2, tail, _, hseq⟩ :=
                      segs_extend (base ++ [k]) sub s hsV
                    refine ⟨k2 :: tail, ?_⟩
                    rw [hseq]
                    simp
            obtain ⟨k2, tail2, hk2mem, hseq2⟩ := segs_extend base es s hsE
            obtain ⟨tail1, hseq1⟩ := h1
            rw [hseq1] at hseq2
            have hcc := List.append_cancel_left hseq2
            injection hcc with hkk _
            exact hk (hkk ▸ hk2mem)

theorem segs_nodup (base : List String) (t : MapResult)
    (hnd : nodupKeysMap t = true) :
    (nodeSegsMap base t ++ leafSegsMap base t).Nodup :=
  segs_nodup_aux (sizeOf t) base t (Nat.le_refl _) hnd

theorem assocSet_append_of_none {α : Type} {l : List (String × α)}
    {n : String} (v : α) (h : assocLookup l n = none) :
    assocSet l n v = l ++ [(n, v)] := by
  induction l with
  | nil => simp [assocSet]
  | cons p rest ih =>
      rw [assocLookup] at h
      rw [assocSet]
      by_cases hk : p.1 = n
      · rw [if_pos hk] at h
        exact absurd h (by simp)
      · rw [if_neg hk] at h
        simp [hk, ih h]

/-- Folding fresh, pairwise-distinct keys into the projection map appends
one entry per key, in order. -/
theorem foldl_set_fresh :
    ∀ (rs : List String) (macc : List (String × Nat)),
      rs.Nodup → (∀ r ∈ rs, assocLookup macc r = none) →
      rs.foldl (fun acc k => assocSet acc k 1) macc =
        macc ++ rs.map (fun k => (k, 1)) := by
  intro rs
  induction rs with
  | nil => intro macc _ _; simp
  | cons r rest ih =>
      intro macc hnd hfresh
      rw [List.nodup_cons] at hnd
      have h1 : assocSet macc r 1 = macc ++ [(r, 1)] :=
        assocSet_append_of_none 1 (hfresh r (by simp))
      have hfresh2 : ∀ x ∈ rest, assocLookup (macc ++ [(r, 1)]) x = none := by
        intro x hx
        rw [assocLookup_append, hfresh x (by simp [hx])]
        have hxr : r ≠ x := fun hh => hnd.1 (hh ▸ hx)
        simp [assocLookup, hxr]
      rw [List.foldl_cons, h1, ih (macc ++ [(r, 1)]) hnd.2 hfresh2]
      simp

/-- The info object for the selection `{ a { b } c }` on field `q`. -/
def c8winfo : GraphQLResolveInfo :=
  { fieldNodes := some [.field "q" []
      [.field "a" [] [.field "b" [] []], .field "c" [] []]],
    fieldASTs := none, fieldName := "q", fragments := [],
    variableValues := [] }

/-- Options keeping parent fields, renaming the leaf path `a.b` to `x`. -/
def c8wopts : FieldsListOptions :=
  { transform := [("a.b", "x")], keepParentField := true }

/-- The info object for the flat selection `{ a b }` on field `q`. -/
def c8binfo : GraphQLResolveInfo :=
  { fieldNodes := some [.field "q" [] [.field "a" [] [], .field "b" [] []]],
    fieldASTs := none, fieldName := "q", fragments := [],
    variableValues := [] }

/-- Options renaming both leaves `a` and `b` to the same name `x`. -/
def c8bopts : FieldsListOptions :=
  { transform := [("a", "x"), ("b", "x")] }

/-- Counterexample to C8 as stated: under the transform `a ↦ x, b ↦ x`,
the flattener records the two distinct leaf paths `a` and `b` under the
same transformed key `x`, so the recorded paths are not pairwise distinct
and the final projection holds a single entry for two recorded paths. -/
theorem projection_transform_collision :
    recLoop 100 [("a", "x"), ("b", "x")] false
      [("", [("a", .leaf), ("b", .leaf)])] = some ["x", "x"] ∧
    ¬ (["x", "x"] : List String).Nodup ∧
    fieldsProjection 100 (some c8binfo) (some c8bopts) = some [("x", 1)] :=
  ⟨rfl, by decide, rfl⟩

/-- C8 (amended): when the field keys of the presence map are nonempty,
dot-free and sibling-distinct — as for a map built from a parsed GraphQL
query — and the transform table does not itself merge two recorded paths
(the transformed leaf paths are pairwise distinct and disjoint from the
retained parent paths), the recorded keys are pairwise distinct and the
final projection has exactly one entry per recorded key, in order. -/
theorem projection_paths_distinct :
    ∀ (fuel : Nat) (info : Option GraphQLResolveInfo)
      (options : Option FieldsListOptions) (tree : MapResult)
      (rs : List String),
      fieldsMap fuel info options = some tree →
      recLoop fuel (options.getD {}).transform
        (options.getD {}).keepParentField [("", tree)] = some rs →
      validKeysMap tree = true →
      nodupKeysMap tree = true →
      ((leafDotPathsMap "" tree).map
        (applyTransform (options.getD {}).transform)).Nodup →
      (∀ p ∈ (if (options.getD {}).keepParentField then
          nodeDotPathsMap "" tree else []),
        p ∉ (leafDotPathsMap "" tree).map
          (applyTransform (options.getD {}).transform)) →
      rs.Nodup ∧
        fieldsProjection fuel info options =
          some (rs.map fun k => (k, 1)) := by
  intro fuel info options tree rs hmap hrec hvk hnd hleaf hdisj
  have hperm := recLoop_perm_dfs fuel _ _ _ rs hrec
  simp only [List.flatMap_cons, List.flatMap_nil, List.append_nil] at hperm
  have hall := hperm.trans (dfsMap_content (options.getD {}).transform
    (options.getD {}).keepParentField "" tree)
  have hnodeNodup : (nodeDotPathsMap "" tree).Nodup := by
    have hbridge : nodeDotPathsMap "" tree =
        (nodeSegsMap [] tree).map joinDots :=
      (segs_bridge [] tree hvk (by simp)).1
    have hsegnd : (nodeSegsMap [] tree).Nodup :=
      (List.nodup_append.1 (segs_nodup [] tree hnd)).1
    have hinj : ∀ x ∈ nodeSegsMap [] tree, ∀ y ∈ nodeSegsMap [] tree,
        joinDots x = joinDots y → x = y := by
      intro x hx y hy hxy
      have hxm : x ∈ nodeSegsMap [] tree ++ leafSegsMap [] tree :=
        List.mem_append.2 (Or.inl hx)
      have hym : y ∈ nodeSegsMap [] tree ++ leafSegsMap [] tree :=
        List.mem_append.2 (Or.inl hy)
      obtain ⟨k1, t1, _, hx1⟩ := segs_extend [] tree x hxm
      obtain ⟨k2, t2, _, hy1⟩ := segs_extend [] tree y hym
      exact joinDots_inj x y (by rw [hx1]; simp) (by rw [hy1]; simp)
        (segs_valid [] tree hvk (by simp) x hxm)
        (segs_valid [] tree hvk (by simp) y hym) hxy
    rw [hbridge]
    exact hsegnd.map_on hinj
  have hRHS : ((if (options.getD {}).keepParentField then
      nodeDotPathsMap "" tree else []) ++
      (leafDotPathsMap "" tree).map
        (applyTransform (options.getD {}).transform)).Nodup := by
    rw [List.nodup_append]
    refine ⟨?_, hleaf, fun a ha => hdisj a ha⟩
    cases hkp : (options.getD {}).keepParentField with
    | false => simp only [Bool.false_eq_true, if_false]; exact List.nodup_nil
    | true => simp only [if_true]; exact hnodeNodup
  have hrsNodup : rs.Nodup := hall.nodup_iff.2 hRHS
  refine ⟨hrsNodup, ?_⟩
  rw [fieldsProjection, hmap]
  show projLoop fuel (options.getD {}).transform
      (options.getD {}).keepParentField [("", tree)] [] =
    some (rs.map fun k => (k, 1))
  rw [projLoop_eq_recLoop, hrec]
  simp only [Option.map_some']
  rw [foldl_set_fresh rs [] hrsNodup (fun r _ => rfl)]
  simp

/-- Witness for C8: the amended statement applied to the query
`{ a { b } c }` with parent retention and the leaf transform `a.b ↦ x`;
the recorded keys `a`, `c`, `x` are distinct and each yields one
projection entry. -/
theorem projection_paths_distinct_witness :
    (["a", "c", "x"] : List String).Nodup ∧
      fieldsProjection 100 (some c8winfo) (some c8wopts) =
        some (["a", "c", "x"].map fun k => (k, 1)) :=
  projection_paths_distinct 100 (some c8winfo) (some c8wopts)
    [("a", .node [("b", .leaf)]), ("c", .leaf)] ["a", "c", "x"]
    rfl rfl rfl rfl (by decide) (by decide)

end GFL
